import Mathlib

/-!
Verification of the rusty-engine HTML/CSS parsing core.

The development shallowly embeds the two recursive-descent scanners of the
repository (the markup parser in `src/parser.rs` and the selector parser in
`src/parser/css.rs`) together with the node and selector data model they
produce (`src/dom.rs`).

Modelling conventions:
* Rust `String` / `&str` values are lists of characters; the byte-offset
  cursor `pos` addresses the UTF-8 encoding of that list, so `byteLen` and
  `dropBytes` translate `String::len` and `str::get(pos..)` exactly,
  including the behaviour at non-boundary offsets.
* A Rust panic (failed `assert!`, `unwrap` of `None`, explicit `panic!`) is
  the `Res.panic` outcome; `Res.fuelOut` is an artifact of bounding every
  loop and recursion of the source by a fuel parameter, so that all
  definitions are structurally recursive and computable.  A returned value
  is `Res.ok`.
* Every parsing function takes the fuel first; a function entered with fuel
  `k+1` passes `k` to the functions it calls.
-/

set_option maxHeartbeats 1000000

namespace RustyEngine

/-- Outcome of running a piece of the Rust source: a normal return, a Rust
panic, or exhaustion of the fuel bounding the embedded recursion. -/
inductive Res (α : Type) where
  | ok : α → Res α
  | panic : Res α
  | fuelOut : Res α
deriving DecidableEq, Repr

namespace Res

/-- Sequencing of fallible steps: a panic or fuel exhaustion aborts the rest
of the computation, exactly as a Rust panic unwinds out of the caller. -/
def bind : Res α → (α → Res β) → Res β
  | .ok a, f => f a
  | .panic, _ => .panic
  | .fuelOut, _ => .fuelOut

/-- Rust Option::unwrap: return the value or panic. -/
def unwrapO : Option α → Res α
  | some a => .ok a
  | none => .panic

@[simp] theorem bind_ok (a : α) (f : α → Res β) : bind (.ok a) f = f a := rfl

@[simp] theorem bind_panic (f : α → Res β) : bind .panic f = (.panic : Res β) := rfl

@[simp] theorem bind_fuelOut (f : α → Res β) : bind .fuelOut f = (.fuelOut : Res β) := rfl

@[simp] theorem bind_eq_ok {x : Res α} {f : α → Res β} {b : β} :
    bind x f = .ok b ↔ ∃ a, x = .ok a ∧ f a = .ok b := by
  cases x <;> simp [bind]

@[simp] theorem unwrapO_eq_ok {x : Option α} {a : α} :
    unwrapO x = .ok a ↔ x = some a := by
  cases x <;> simp [unwrapO]

@[simp] theorem ok_ne_panic (a : α) : (Res.ok a) ≠ .panic := by
  intro h; cases h

@[simp] theorem ok_ne_fuelOut (a : α) : (Res.ok a) ≠ .fuelOut := by
  intro h; cases h

end Res

/-- Rust assert!: panic when the condition is false. -/
def rassert (b : Bool) : Res Unit := if b then .ok () else .panic

@[simp] theorem rassert_true : rassert true = .ok () := rfl

@[simp] theorem rassert_false : rassert false = .panic := rfl

@[simp] theorem rassert_eq_ok {b : Bool} {u : Unit} : rassert b = .ok u ↔ b = true := by
  cases b <;> simp [rassert]

@[simp] theorem ite_bool_false {α : Type} (a b : α) :
    (if (false : Bool) = true then a else b) = b := rfl

@[simp] theorem ite_bool_true {α : Type} (a b : α) :
    (if (true : Bool) = true then a else b) = a := rfl

/-- Number of bytes in the UTF-8 encoding of a character list
(Rust String::len). -/
def byteLen (l : List Char) : Nat := (l.map Char.utf8Size).sum

@[simp] theorem byteLen_nil : byteLen [] = 0 := rfl

@[simp] theorem byteLen_cons (c : Char) (l : List Char) :
    byteLen (c :: l) = c.utf8Size + byteLen l := rfl

theorem byteLen_append (a b : List Char) :
    byteLen (a ++ b) = byteLen a + byteLen b := by
  induction a with
  | nil => simp
  | cons c cs ih => simp [ih]; omega

theorem one_le_utf8Size (c : Char) : 1 ≤ c.utf8Size := Char.utf8Size_pos c

theorem byteLen_eq_zero {l : List Char} : byteLen l = 0 ↔ l = [] := by
  cases l with
  | nil => simp
  | cons c cs =>
    have := one_le_utf8Size c
    simp
    omega

/-- The suffix of `l` beginning at byte offset `n` of its UTF-8 encoding
(Rust str::get(n..)): `some` suffix when `n` is a character boundary (the
offset right after the whole list included), `none` otherwise. -/
def dropBytes : List Char → Nat → Option (List Char)
  | l, 0 => some l
  | [], _+1 => none
  | c :: cs, n+1 =>
    if c.utf8Size ≤ n+1 then dropBytes cs (n+1 - c.utf8Size) else none

@[simp] theorem dropBytes_zero (l : List Char) : dropBytes l 0 = some l := by
  cases l <;> rfl

theorem dropBytes_cons_add (c : Char) (cs : List Char) (n : Nat) :
    dropBytes (c :: cs) (c.utf8Size + n) = dropBytes cs n := by
  have hpos := Char.utf8Size_pos c
  obtain ⟨k, hk⟩ : ∃ k, c.utf8Size + n = k + 1 := ⟨c.utf8Size + n - 1, by omega⟩
  rw [hk]
  simp only [dropBytes]
  rw [if_pos (by omega)]
  congr 1
  omega

theorem dropBytes_append (a b : List Char) : dropBytes (a ++ b) (byteLen a) = some b := by
  induction a with
  | nil => simp
  | cons c cs ih =>
    have : byteLen (c :: cs) = c.utf8Size + byteLen cs := rfl
    rw [List.cons_append, this, dropBytes_cons_add]
    exact ih

/-- Characterization of str::get(n..): it returns `some suf` exactly when the
input splits as `a ++ suf` with `n` the encoded size of `a`. -/
theorem dropBytes_eq_some_iff {l suf : List Char} {n : Nat} :
    dropBytes l n = some suf ↔ ∃ a, l = a ++ suf ∧ n = byteLen a := by
  constructor
  · intro h
    induction l generalizing n with
    | nil =>
      cases n with
      | zero => simp at h; subst h; exact ⟨[], by simp⟩
      | succ m => simp [dropBytes] at h
    | cons c cs ih =>
      cases n with
      | zero => simp at h; subst h; exact ⟨[], by simp⟩
      | succ m =>
        simp only [dropBytes] at h
        split at h
        · rename_i hle
          obtain ⟨a, rfl, ha⟩ := ih h
          refine ⟨c :: a, rfl, ?_⟩
          simp
          omega
        · cases h
  · rintro ⟨a, rfl, rfl⟩
    exact dropBytes_append a suf

theorem dropBytes_byteLen {l suf : List Char} {n : Nat}
    (h : dropBytes l n = some suf) : byteLen l = n + byteLen suf := by
  obtain ⟨a, rfl, rfl⟩ := dropBytes_eq_some_iff.mp h
  rw [byteLen_append]

theorem dropBytes_cons_utf8Size {l suf : List Char} {c : Char} {n : Nat}
    (h : dropBytes l n = some (c :: suf)) :
    dropBytes l (n + c.utf8Size) = some suf := by
  obtain ⟨a, rfl, rfl⟩ := dropBytes_eq_some_iff.mp h
  apply dropBytes_eq_some_iff.mpr
  exact ⟨a ++ [c], by simp, by simp [byteLen_append]⟩

/-- Rust char::is_whitespace: the Unicode White_Space property
(code points U+0009..U+000D, U+0020, U+0085, U+00A0, U+1680,
U+2000..U+200A, U+2028, U+2029, U+202F, U+205F, U+3000). -/
def rustIsWhitespace (c : Char) : Bool :=
  (0x9 ≤ c.toNat && c.toNat ≤ 0xD) || c.toNat == 0x20 || c.toNat == 0x85 ||
  c.toNat == 0xA0 || c.toNat == 0x1680 ||
  (0x2000 ≤ c.toNat && c.toNat ≤ 0x200A) || c.toNat == 0x2028 ||
  c.toNat == 0x2029 || c.toNat == 0x202F || c.toNat == 0x205F ||
  c.toNat == 0x3000

/-- The character class of Html::parse_tag_name: the ranges a..=z, A..=Z
and 0..=9, written as code-point bounds. -/
def isTagNameChar (c : Char) : Bool :=
  (97 ≤ c.toNat && c.toNat ≤ 122) || (65 ≤ c.toNat && c.toNat ≤ 90) ||
  (48 ≤ c.toNat && c.toNat ≤ 57)

/-- The single-quote character, written by code point to keep the source
free of quote-escape literals. -/
def squote : Char := Char.ofNat 39

/-- The double-quote character, written by code point. -/
def dquote : Char := Char.ofNat 34

/-- The opening-brace character, written by code point. -/
def obrace : Char := Char.ofNat 123

/-- The comment opener "<!--" as a character list. -/
def commentOpen : List Char := ['<', '!', '-', '-']

/-- The comment closer "-->" as a character list. -/
def commentClose : List Char := ['-', '-', '>']

/-- The closing-tag opener "</" as a character list. -/
def closeTag : List Char := ['<', '/']

/-- A DOM node (src/dom.rs Node with its NodeType): a text leaf or an
element carrying a tag name, an attribute map and the ordered children. -/
inductive Node where
  | text : List Char → Node
  | element : List Char → List (List Char × List Char) → List Node → Node

/-- The attribute map (dom.rs AttrMap = HashMap String String).  A HashMap
exposes no observable key order in this program, so it is modeled as an
association list whose insert replaces the value of an existing key
(HashMap::insert upsert semantics, last occurrence wins). -/
abbrev AttrMap := List (List Char × List Char)

/-- HashMap::insert: overwrite the value of an existing key, otherwise add
the new pair. -/
def insertAttr (m : AttrMap) (k v : List Char) : AttrMap :=
  if (List.any m fun p => p.1 == k) then
    List.map (fun p => if p.1 == k then (k, v) else p) m
  else m ++ [(k, v)]

/-- The HTML scanner state (parser.rs struct Html): a byte-offset cursor
`pos` over the immutable `input` string. -/
structure Html where
  pos : Nat
  input : List Char
deriving DecidableEq, Repr

namespace Html

/-- Remaining input self.input.get(self.pos..).unwrap(), shared by several
methods below; panics when `pos` is not a character boundary. -/
def remaining (s : Html) : Res (List Char) :=
  Res.unwrapO (dropBytes s.input s.pos)

/-- Html::next_char: read the current character without consuming it;
the unwrap panics at end of input. -/
def next_char (s : Html) : Res Char :=
  (s.remaining).bind fun suf => Res.unwrapO suf.head?

/-- Html::starts_with: do the next characters start with the given string. -/
def starts_with (s : Html) (p : List Char) : Res Bool :=
  (s.remaining).bind fun suf => .ok (List.isPrefixOf p suf)

/-- Html::eof: true when the input is consumed (pos >= input.len()). -/
def eof (s : Html) : Bool := decide (byteLen s.input ≤ s.pos)

/-- Html::consume_char: decode the character at the cursor and advance to
the byte index of the following character; when no following character
exists the source falls back to `iter.next().unwrap_or((1, ' '))`, a fixed
single-byte advance. -/
def consume_char (s : Html) : Res (Char × Html) :=
  (s.remaining).bind fun suf =>
    match suf with
    | [] => .panic
    | c :: rest =>
      match rest with
      | [] => .ok (c, { s with pos := s.pos + 1 })
      | _ :: _ => .ok (c, { s with pos := s.pos + c.utf8Size })

/-- Html::consume_while: consume characters while the test accepts the next
character and the input is not exhausted. -/
def consume_while : Nat → Html → (Char → Bool) → Res (List Char × Html)
  | 0, _, _ => .fuelOut
  | fuel+1, s, test =>
    if s.eof then .ok ([], s)
    else
      (s.next_char).bind fun c =>
        if test c then
          (s.consume_char).bind fun (c1, s1) =>
            (consume_while fuel s1 test).bind fun (acc, s2) =>
              .ok (c1 :: acc, s2)
        else .ok ([], s)

/-- Html::consume_whitespace: consume_while(char::is_whitespace), result
discarded. -/
def consume_whitespace (fuel : Nat) (s : Html) : Res Html :=
  (consume_while fuel s rustIsWhitespace).bind fun (_, s1) => .ok s1

/-- Html::parse_tag_name: a run of ASCII letters and digits. -/
def parse_tag_name (fuel : Nat) (s : Html) : Res (List Char × Html) :=
  consume_while fuel s isTagNameChar

/-- The bounded loops `for _ in 0..n { self.consume_char(); }` used by
Html::parse_comment. -/
def consume_chars : Nat → Html → Res Html
  | 0, s => .ok s
  | n+1, s => (s.consume_char).bind fun (_, s1) => consume_chars n s1

/-- The scanning loop of Html::parse_comment: advance one character at a
time until the remaining input starts with the comment closer. -/
def comment_scan : Nat → Html → Res Html
  | 0, _ => .fuelOut
  | fuel+1, s =>
    (s.starts_with commentClose).bind fun b =>
      if b then .ok s
      else (s.consume_char).bind fun (_, s1) => comment_scan fuel s1

/-- Html::parse_comment: consume the 4-character opener, scan to the
closer, consume the 3-character closer. -/
def parse_comment (fuel : Nat) (s : Html) : Res Html :=
  (consume_chars 4 s).bind fun s1 =>
    (comment_scan fuel s1).bind fun s2 =>
      consume_chars 3 s2

/-- The accumulation loop of Html::parse_text: consume up to the next `<`;
when a comment opener follows, discard the comment and keep accumulating
into the same buffer. -/
def parse_text_loop : Nat → Html → Res (List Char × Html)
  | 0, _ => .fuelOut
  | fuel+1, s =>
    (consume_while fuel s (fun c => c != '<')).bind fun (data, s1) =>
      (s1.starts_with commentOpen).bind fun b =>
        if b then
          (parse_comment fuel s1).bind fun s2 =>
            (parse_text_loop fuel s2).bind fun (more, s3) =>
              .ok (data ++ more, s3)
        else .ok (data, s1)

/-- Html::parse_text: run the accumulation loop and wrap the collected
data in a Text node. -/
def parse_text (fuel : Nat) (s : Html) : Res (Node × Html) :=
  (parse_text_loop fuel s).bind fun (data, s1) => .ok (Node.text data, s1)

/-- Html::parse_attr_value: an opening quote (double or single), the run of
characters other than that quote, and the matching closing quote. -/
def parse_attr_value (fuel : Nat) (s : Html) : Res (List Char × Html) :=
  (s.consume_char).bind fun (open_quote, s1) =>
    (rassert (open_quote == dquote || open_quote == squote)).bind fun _ =>
      (consume_while fuel s1 (fun c => c != open_quote)).bind fun (value, s2) =>
        (s2.consume_char).bind fun (cq, s3) =>
          (rassert (cq == open_quote)).bind fun _ =>
            .ok (value, s3)

/-- Html::parse_attr: attribute name, `=`, quoted value. -/
def parse_attr (fuel : Nat) (s : Html) : Res ((List Char × List Char) × Html) :=
  (parse_tag_name fuel s).bind fun (key, s1) =>
    (s1.consume_char).bind fun (e, s2) =>
      (rassert (e == '=')).bind fun _ =>
        (parse_attr_value fuel s2).bind fun (value, s3) =>
          .ok ((key, value), s3)

/-- The loop of Html::parse_attributes: skip whitespace, stop at `>`,
otherwise parse one pair and upsert it into the map. -/
def parse_attributes_loop : Nat → Html → AttrMap → Res (AttrMap × Html)
  | 0, _, _ => .fuelOut
  | fuel+1, s, attrs =>
    (consume_whitespace fuel s).bind fun s1 =>
      (s1.next_char).bind fun c =>
        if c == '>' then .ok (attrs, s1)
        else
          (parse_attr fuel s1).bind fun ((key, value), s2) =>
            parse_attributes_loop fuel s2 (insertAttr attrs key value)

/-- Html::parse_attributes: run the loop from the empty map. -/
def parse_attributes (fuel : Nat) (s : Html) : Res (AttrMap × Html) :=
  parse_attributes_loop fuel s []

mutual

/-- Html::parse_node: discard a comment (yielding no node), yield no node on
a closing tag, otherwise dispatch on `<` to parse_element or parse_text. -/
def parse_node : Nat → Html → Res (Option Node × Html)
  | 0, _ => .fuelOut
  | fuel+1, s =>
    (s.starts_with commentOpen).bind fun b1 =>
      if b1 then (parse_comment fuel s).bind fun s1 => .ok (none, s1)
      else
        (s.starts_with closeTag).bind fun b2 =>
          if b2 then .ok (none, s)
          else
            (s.next_char).bind fun c =>
              if c == '<' then
                (parse_element fuel s).bind fun (n, s1) => .ok (some n, s1)
              else
                (parse_text fuel s).bind fun (n, s1) => .ok (some n, s1)

/-- Html::parse_element: opening tag with attributes, children, closing tag
whose name must match the opening tag name; every requirement is an
assert!, i.e. a panic when violated. -/
def parse_element : Nat → Html → Res (Node × Html)
  | 0, _ => .fuelOut
  | fuel+1, s =>
    (s.consume_char).bind fun (c1, s1) =>
      (rassert (c1 == '<')).bind fun _ =>
        (parse_tag_name fuel s1).bind fun (tag_name, s2) =>
          (parse_attributes fuel s2).bind fun (attrs, s3) =>
            (s3.consume_char).bind fun (c2, s4) =>
              (rassert (c2 == '>')).bind fun _ =>
                (parse_nodes fuel s4).bind fun (children, s5) =>
                  (s5.consume_char).bind fun (c3, s6) =>
                    (rassert (c3 == '<')).bind fun _ =>
                      (s6.consume_char).bind fun (c4, s7) =>
                        (rassert (c4 == '/')).bind fun _ =>
                          (parse_tag_name fuel s7).bind fun (ctn, s8) =>
                            (rassert (ctn == tag_name)).bind fun _ =>
                              (s8.consume_char).bind fun (c5, s9) =>
                                (rassert (c5 == '>')).bind fun _ =>
                                  .ok (Node.element tag_name attrs children, s9)

/-- Html::parse_nodes: skip whitespace; a comment is discarded and control
falls through to parse_node (the source has no `continue` after the comment
branch); otherwise stop at end of input or at a closing tag; a parsed node
is appended, a None result restarts the loop. -/
def parse_nodes : Nat → Html → Res (List Node × Html)
  | 0, _ => .fuelOut
  | fuel+1, s =>
    (consume_whitespace fuel s).bind fun s1 =>
      (s1.starts_with commentOpen).bind fun b1 =>
        if b1 then
          (parse_comment fuel s1).bind fun s2 =>
            (parse_node fuel s2).bind fun (n?, s3) =>
              (parse_nodes fuel s3).bind fun (rest, s4) =>
                .ok ((match n? with | some n => n :: rest | none => rest), s4)
        else
          if s1.eof then .ok ([], s1)
          else
            (s1.starts_with closeTag).bind fun b2 =>
              if b2 then .ok ([], s1)
              else
                (parse_node fuel s1).bind fun (n?, s3) =>
                  (parse_nodes fuel s3).bind fun (rest, s4) =>
                    .ok ((match n? with | some n => n :: rest | none => rest), s4)

end

/-- Html::parse: run parse_nodes from position 0; a single parsed node is
returned directly (swap_remove(0)), otherwise the nodes become the children
of a synthesized html element with empty attributes. -/
def parse (fuel : Nat) (source : List Char) : Res Node :=
  (parse_nodes fuel { pos := 0, input := source }).bind fun (ns, _) =>
    match ns with
    | [n] => .ok n
    | _ => .ok (Node.element ("html".toList) [] ns)

/-- The cursor-discipline invariant every scanning operation maintains on a
normal completion: the input string is unchanged, the cursor never moves
backward, and a cursor inside the buffer stays inside the buffer. -/
def presv (s s1 : Html) : Prop :=
  s1.input = s.input ∧ s.pos ≤ s1.pos ∧
  (s.pos ≤ byteLen s.input → s1.pos ≤ byteLen s.input)

end Html

/-- css.rs valid_identifier_char: ASCII letters, digits, `-` and `_`. -/
def valid_identifier_char (c : Char) : Bool :=
  ('a' ≤ c && c ≤ 'z') || ('A' ≤ c && c ≤ 'Z') || ('0' ≤ c && c ≤ '9') ||
  c == '-' || c == '_'

/-- css.rs SimpleSelector: optional tag name, optional id, list of classes
(the Rust field `class`, renamed because `class` is a Lean keyword). -/
structure SimpleSelector where
  tag_name : Option (List Char)
  id : Option (List Char)
  classes : List (List Char)
deriving DecidableEq, Repr

/-- SimpleSelector::new: all fields empty. -/
def SimpleSelector.new : SimpleSelector :=
  { tag_name := none, id := none, classes := [] }

/-- css.rs Selector: the single Simple case. -/
inductive Selector where
  | simple : SimpleSelector → Selector
deriving DecidableEq, Repr

/-- css.rs Specificity = (usize, usize, usize). -/
abbrev Specificity := Nat × Nat × Nat

/-- Selector::specificity: a = id.iter().count() (1 when the id is present),
b = class.len(), c = tag_name.iter().count() (1 when present). -/
def Selector.specificity : Selector → Specificity
  | .simple sel =>
    ((match sel.id with | some _ => 1 | none => 0),
     sel.classes.length,
     (match sel.tag_name with | some _ => 1 | none => 0))

/-- Comparison of two naturals, the usize Ord instance. -/
def natCmp (a b : Nat) : Ordering :=
  if a < b then .lt else if b < a then .gt else .eq

/-- Lexicographic comparison of two specificity triples: the Ord instance
Rust derives for the tuple type (usize, usize, usize). -/
def specCmp (x y : Specificity) : Ordering :=
  match natCmp x.1 y.1 with
  | .eq =>
    match natCmp x.2.1 y.2.1 with
    | .eq => natCmp x.2.2 y.2.2
    | o => o
  | o => o

/-- The comparator closure passed to sort_by in Css::parse_selectors:
`|a, b| b.specificity().cmp(&a.specificity())`, so that ascending order
under the comparator is descending specificity. -/
def selCmp (a b : Selector) : Ordering :=
  specCmp b.specificity a.specificity

/-- One insertion step of the stable sort: `x` moves past exactly the
elements strictly above it in specificity and lands in front of the first
element of equal or lower specificity. -/
def sortInsert (x : Selector) : List Selector → List Selector
  | [] => [x]
  | y :: ys =>
    if specCmp x.specificity y.specificity = .lt then y :: sortInsert x ys
    else x :: y :: ys

/-- Vec::sort_by with the selCmp comparator.  Vec::sort_by is a stable
sort, and a stable sort of a list under a total preorder is unique, so this
insertion sort (which keeps earlier input elements in front of later ones
of equal specificity) computes exactly its result. -/
def sortSelectors : List Selector → List Selector
  | [] => []
  | x :: xs => sortInsert x (sortSelectors xs)

/-- The CSS scanner state (css.rs struct Css): a byte-offset cursor over
the immutable input, identical to the markup scanner's state. -/
structure Css where
  pos : Nat
  input : List Char
deriving DecidableEq, Repr

namespace Css

/-- Remaining input self.input.get(self.pos..).unwrap(). -/
def remaining (s : Css) : Res (List Char) :=
  Res.unwrapO (dropBytes s.input s.pos)

/-- Css::next_char, textually identical to Html::next_char. -/
def next_char (s : Css) : Res Char :=
  (s.remaining).bind fun suf => Res.unwrapO suf.head?

/-- Css::starts_with, textually identical to Html::starts_with. -/
def starts_with (s : Css) (p : List Char) : Res Bool :=
  (s.remaining).bind fun suf => .ok (List.isPrefixOf p suf)

/-- Css::eof: pos >= input.len(). -/
def eof (s : Css) : Bool := decide (byteLen s.input ≤ s.pos)

/-- Css::consume_char, textually identical to Html::consume_char, with the
same fixed single-byte fallback for the final character. -/
def consume_char (s : Css) : Res (Char × Css) :=
  (s.remaining).bind fun suf =>
    match suf with
    | [] => .panic
    | c :: rest =>
      match rest with
      | [] => .ok (c, { s with pos := s.pos + 1 })
      | _ :: _ => .ok (c, { s with pos := s.pos + c.utf8Size })

/-- Css::consume_while, textually identical to Html::consume_while. -/
def consume_while : Nat → Css → (Char → Bool) → Res (List Char × Css)
  | 0, _, _ => .fuelOut
  | fuel+1, s, test =>
    if s.eof then .ok ([], s)
    else
      (s.next_char).bind fun c =>
        if test c then
          (s.consume_char).bind fun (c1, s1) =>
            (consume_while fuel s1 test).bind fun (acc, s2) =>
              .ok (c1 :: acc, s2)
        else .ok ([], s)

/-- Css::consume_whitespace. -/
def consume_whitespace (fuel : Nat) (s : Css) : Res Css :=
  (consume_while fuel s rustIsWhitespace).bind fun (_, s1) => .ok s1

/-- Css::parse_identifier: consume_while(valid_identifier_char). -/
def parse_identifier (fuel : Nat) (s : Css) : Res (List Char × Css) :=
  consume_while fuel s valid_identifier_char

/-- The while-loop of Css::parse_simple_selector, threading the selector
record being populated: `#` sets the id, `.` appends a class, `*` is
consumed with no effect, an identifier-leading character sets (overwrites)
the tag name, anything else stops the loop; the loop also stops at end of
input. -/
def parse_simple_selector_loop : Nat → Css → SimpleSelector → Res (SimpleSelector × Css)
  | 0, _, _ => .fuelOut
  | fuel+1, s, sel =>
    if s.eof then .ok (sel, s)
    else
      (s.next_char).bind fun c =>
        if c == '#' then
          (s.consume_char).bind fun (_, s1) =>
            (parse_identifier fuel s1).bind fun (name, s2) =>
              parse_simple_selector_loop fuel s2 { sel with id := some name }
        else if c == '.' then
          (s.consume_char).bind fun (_, s1) =>
            (parse_identifier fuel s1).bind fun (name, s2) =>
              parse_simple_selector_loop fuel s2
                { sel with classes := sel.classes ++ [name] }
        else if c == '*' then
          (s.consume_char).bind fun (_, s1) =>
            parse_simple_selector_loop fuel s1 sel
        else if valid_identifier_char c then
          (parse_identifier fuel s).bind fun (name, s1) =>
            parse_simple_selector_loop fuel s1 { sel with tag_name := some name }
        else .ok (sel, s)

/-- Css::parse_simple_selector: run the loop from SimpleSelector::new. -/
def parse_simple_selector (fuel : Nat) (s : Css) : Res (SimpleSelector × Css) :=
  parse_simple_selector_loop fuel s SimpleSelector.new

/-- The collection loop of Css::parse_selectors: parse one simple selector
and push it; after optional whitespace a comma continues with the next
selector, an opening brace stops, and any other character (or end of
input, where next_char panics) is the explicit panic! of the source. -/
def parse_selectors_loop : Nat → Css → Res (List Selector × Css)
  | 0, _ => .fuelOut
  | fuel+1, s =>
    (parse_simple_selector fuel s).bind fun (simple, s1) =>
      (consume_whitespace fuel s1).bind fun s2 =>
        (s2.next_char).bind fun c =>
          if c == ',' then
            (s2.consume_char).bind fun (_, s3) =>
              (consume_whitespace fuel s3).bind fun s4 =>
                (parse_selectors_loop fuel s4).bind fun (rest, s5) =>
                  .ok (Selector.simple simple :: rest, s5)
          else if c == obrace then .ok ([Selector.simple simple], s2)
          else .panic

/-- Css::parse_selectors: collect the comma-separated selectors, then
sort_by descending specificity (stable). -/
def parse_selectors (fuel : Nat) (s : Css) : Res (List Selector × Css) :=
  (parse_selectors_loop fuel s).bind fun (sels, s1) =>
    .ok (sortSelectors sels, s1)

/-- The cursor-discipline invariant for the selector scanner, identical to
the markup scanner's. -/
def presv (s s1 : Css) : Prop :=
  s1.input = s.input ∧ s.pos ≤ s1.pos ∧
  (s.pos ≤ byteLen s.input → s1.pos ≤ byteLen s.input)

end Css

/-! Lexicographic characterization of the tuple comparator. -/

theorem natCmp_eq_lt {a b : Nat} : natCmp a b = .lt ↔ a < b := by
  unfold natCmp
  split_ifs <;> simp <;> omega

theorem natCmp_eq_gt {a b : Nat} : natCmp a b = .gt ↔ b < a := by
  unfold natCmp
  split_ifs <;> simp <;> omega

theorem natCmp_eq_eq {a b : Nat} : natCmp a b = .eq ↔ a = b := by
  unfold natCmp
  split_ifs <;> simp <;> omega

theorem specCmp_eq_lt {x y : Specificity} : specCmp x y = .lt ↔
    (x.1 < y.1 ∨ (x.1 = y.1 ∧ (x.2.1 < y.2.1 ∨ (x.2.1 = y.2.1 ∧ x.2.2 < y.2.2)))) := by
  unfold specCmp
  rcases h1 : natCmp x.1 y.1 <;> rcases h2 : natCmp x.2.1 y.2.1 <;>
    simp_all [natCmp_eq_lt, natCmp_eq_eq, natCmp_eq_gt] <;> omega

theorem specCmp_eq_gt {x y : Specificity} : specCmp x y = .gt ↔
    (y.1 < x.1 ∨ (y.1 = x.1 ∧ (y.2.1 < x.2.1 ∨ (y.2.1 = x.2.1 ∧ y.2.2 < x.2.2)))) := by
  unfold specCmp
  rcases h1 : natCmp x.1 y.1 <;> rcases h2 : natCmp x.2.1 y.2.1 <;>
    simp_all [natCmp_eq_lt, natCmp_eq_eq, natCmp_eq_gt] <;> omega

theorem specCmp_eq_eq {x y : Specificity} : specCmp x y = .eq ↔ x = y := by
  unfold specCmp
  rcases x with ⟨x1, x2, x3⟩
  rcases y with ⟨y1, y2, y3⟩
  rcases h1 : natCmp x1 y1 <;> rcases h2 : natCmp x2 y2 <;>
    simp_all [natCmp_eq_lt, natCmp_eq_eq, natCmp_eq_gt, Prod.ext_iff] <;> omega

theorem specCmp_not_lt {x y : Specificity} (h : ¬ specCmp x y = .lt) :
    specCmp y x ≠ .gt := by
  rw [specCmp_eq_lt] at h
  simp only [Ne, specCmp_eq_gt]
  omega

/-- Non-ascent under the comparator: the later element is not strictly above
the earlier one.  This is the pairwise order produced by the descending
sort. -/
def SpecDesc (u v : Selector) : Prop :=
  specCmp v.specificity u.specificity ≠ .gt

theorem SpecDesc.trans {a b c : Selector} (h1 : SpecDesc a b) (h2 : SpecDesc b c) :
    SpecDesc a c := by
  unfold SpecDesc at *
  simp only [Ne, specCmp_eq_gt] at *
  omega

/-! Properties of the stable descending sort. -/

theorem sortInsert_perm (x : Selector) (l : List Selector) :
    List.Perm (sortInsert x l) (x :: l) := by
  induction l with
  | nil => rfl
  | cons y ys ih =>
    unfold sortInsert
    split
    · exact (ih.cons y).trans (List.Perm.swap x y ys)
    · rfl

theorem sortSelectors_perm (l : List Selector) :
    List.Perm (sortSelectors l) l := by
  induction l with
  | nil => rfl
  | cons x xs ih =>
    unfold sortSelectors
    exact (sortInsert_perm x (sortSelectors xs)).trans (ih.cons x)

theorem mem_sortInsert {z x : Selector} {l : List Selector} :
    z ∈ sortInsert x l ↔ z = x ∨ z ∈ l := by
  rw [(sortInsert_perm x l).mem_iff]
  simp

theorem sortInsert_sorted {x : Selector} {l : List Selector}
    (h : l.Pairwise SpecDesc) : (sortInsert x l).Pairwise SpecDesc := by
  induction l with
  | nil => simp [sortInsert]
  | cons y ys ih =>
    rw [List.pairwise_cons] at h
    obtain ⟨hy, hys⟩ := h
    unfold sortInsert
    split
    · rename_i hlt
      refine List.Pairwise.cons ?_ (ih hys)
      intro z hz
      rcases mem_sortInsert.mp hz with rfl | hz2
      · unfold SpecDesc
        rw [hlt]
        simp
      · exact hy z hz2
    · rename_i hge
      refine List.Pairwise.cons ?_ (List.Pairwise.cons hy hys)
      intro z hz
      rcases List.mem_cons.mp hz with rfl | hz2
      · exact specCmp_not_lt hge
      · exact SpecDesc.trans (specCmp_not_lt hge) (hy z hz2)

theorem sortSelectors_sorted (l : List Selector) :
    (sortSelectors l).Pairwise SpecDesc := by
  induction l with
  | nil => simp [sortSelectors]
  | cons x xs ih => exact sortInsert_sorted ih

theorem filter_spec_sortInsert (v : Specificity) (x : Selector) (l : List Selector) :
    (sortInsert x l).filter (fun z => decide (z.specificity = v)) =
      if x.specificity = v then
        x :: l.filter (fun z => decide (z.specificity = v))
      else l.filter (fun z => decide (z.specificity = v)) := by
  induction l with
  | nil =>
    simp only [sortInsert, List.filter]
    split_ifs with hx <;> simp [hx]
  | cons y ys ih =>
    unfold sortInsert
    split
    · rename_i hlt
      have hne : x.specificity ≠ y.specificity := by
        intro he
        rw [specCmp_eq_lt] at hlt
        rw [he] at hlt
        omega
      by_cases hx : x.specificity = v <;> by_cases hy : y.specificity = v
      · exact absurd (hx.trans hy.symm) hne
      · simp [List.filter_cons, hx, hy, ih]
      · simp [List.filter_cons, hx, hy, ih]
      · simp [List.filter_cons, hx, hy, ih]
    · by_cases hx : x.specificity = v <;> simp [List.filter_cons, hx]

theorem filter_spec_sortSelectors (v : Specificity) (l : List Selector) :
    (sortSelectors l).filter (fun z => decide (z.specificity = v)) =
      l.filter (fun z => decide (z.specificity = v)) := by
  induction l with
  | nil => rfl
  | cons x xs ih =>
    unfold sortSelectors
    rw [filter_spec_sortInsert]
    by_cases hx : x.specificity = v <;> simp [List.filter_cons, hx, ih]

/-! Step lemmas for the markup scanner: how each primitive behaves on a
cursor whose remaining input is known. -/

namespace Html

theorem eof_false_of_cons {s : Html} {c : Char} {l : List Char}
    (h : dropBytes s.input s.pos = some (c :: l)) : s.eof = false := by
  have hb := dropBytes_byteLen h
  have := Char.utf8Size_pos c
  rw [eof, decide_eq_false_iff_not]
  rw [byteLen_cons] at hb
  omega

theorem eof_true_of_nil {s : Html} (h : dropBytes s.input s.pos = some []) :
    s.eof = true := by
  have hb := dropBytes_byteLen h
  rw [eof, decide_eq_true_eq]
  rw [byteLen_nil] at hb
  omega

theorem remaining_eq {s : Html} {suf : List Char}
    (h : dropBytes s.input s.pos = some suf) : s.remaining = .ok suf := by
  simp [remaining, h]

theorem next_char_of_cons {s : Html} {c : Char} {l : List Char}
    (h : dropBytes s.input s.pos = some (c :: l)) : s.next_char = .ok c := by
  simp [next_char, remaining, h]

theorem starts_with_eq {s : Html} {suf : List Char}
    (h : dropBytes s.input s.pos = some suf) (p : List Char) :
    s.starts_with p = .ok (List.isPrefixOf p suf) := by
  simp [starts_with, remaining, h]

theorem consume_char_of_cons2 {s : Html} {c d : Char} {l : List Char}
    (h : dropBytes s.input s.pos = some (c :: d :: l)) :
    s.consume_char = .ok (c, { s with pos := s.pos + c.utf8Size }) := by
  simp [consume_char, remaining, h]

theorem consume_char_of_one {s : Html} {c : Char}
    (h : dropBytes s.input s.pos = some [c]) :
    s.consume_char = .ok (c, { s with pos := s.pos + 1 }) := by
  simp [consume_char, remaining, h]

theorem consume_while_stop {fuel : Nat} {s : Html} {test : Char → Bool}
    {c : Char} {l : List Char}
    (h : dropBytes s.input s.pos = some (c :: l)) (hc : test c = false) :
    consume_while (fuel + 1) s test = .ok ([], s) := by
  simp only [consume_while]
  rw [eof_false_of_cons h]
  simp [next_char_of_cons h, hc]

/-- Inversion for consume_while on a remaining input that splits as an
accepted run `a` followed by a rejected character `d`: a normal completion
can only have consumed exactly `a`. -/
theorem consume_while_ok_cons {test : Char → Bool} {a : List Char} :
    ∀ {fuel : Nat} {s : Html} {r : List Char × Html} {d : Char} {rest : List Char},
    dropBytes s.input s.pos = some (a ++ d :: rest) →
    (∀ c ∈ a, test c = true) → test d = false →
    consume_while fuel s test = .ok r →
    r = (a, { s with pos := s.pos + byteLen a }) := by
  induction a with
  | nil =>
    intro fuel s r d rest h ha hd hok
    cases fuel with
    | zero => simp [consume_while] at hok
    | succ f =>
      rw [List.nil_append] at h
      rw [consume_while_stop h hd] at hok
      cases hok
      simp
  | cons c a' ih =>
    intro fuel s r d rest h ha hd hok
    cases fuel with
    | zero => simp [consume_while] at hok
    | succ f =>
      have hc : test c = true := ha c (List.mem_cons_self c a')
      rw [List.cons_append] at h
      obtain ⟨e, l2, hel⟩ : ∃ e l2, a' ++ d :: rest = e :: l2 := by
        cases a' <;> exact ⟨_, _, rfl⟩
      simp only [consume_while] at hok
      rw [eof_false_of_cons h] at hok
      rw [hel] at h
      simp only [Bool.false_eq_true, if_false, next_char_of_cons h, Res.bind_ok, hc,
        if_true, consume_char_of_cons2 h] at hok
      simp only [Res.bind_eq_ok] at hok
      obtain ⟨⟨acc, s2⟩, hrec, hfin⟩ := hok
      have h2 : dropBytes s.input (s.pos + c.utf8Size) = some (e :: l2) :=
        dropBytes_cons_utf8Size h
      rw [← hel] at h2
      have := ih (s := { s with pos := s.pos + c.utf8Size }) h2 (fun x hx => ha x (List.mem_cons_of_mem c hx)) hd hrec
      cases this
      cases hfin
      simp [byteLen_cons]
      omega

/-- Inversion for consume_whitespace stopped by a non-whitespace character. -/
theorem consume_whitespace_ok_cons {fuel : Nat} {s s2 : Html} {d : Char} {rest : List Char}
    (h : dropBytes s.input s.pos = some (d :: rest)) (hd : rustIsWhitespace d = false)
    (hok : consume_whitespace fuel s = .ok s2) : s2 = s := by
  rw [consume_whitespace] at hok
  simp only [Res.bind_eq_ok] at hok
  obtain ⟨⟨acc, s1⟩, hcw, hfin⟩ := hok
  have := consume_while_ok_cons (a := []) h (by simp) hd hcw
  cases this
  cases hfin
  rfl

/-- Inversion for parse_tag_name on a remaining input that begins with a
run of tag-name characters followed by something else. -/
theorem parse_tag_name_ok {fuel : Nat} {s : Html} {r : List Char × Html}
    {a : List Char} {d : Char} {rest : List Char}
    (h : dropBytes s.input s.pos = some (a ++ d :: rest))
    (ha : ∀ c ∈ a, isTagNameChar c = true) (hd : isTagNameChar d = false)
    (hok : parse_tag_name fuel s = .ok r) :
    r = (a, { s with pos := s.pos + byteLen a }) := by
  rw [parse_tag_name] at hok
  exact consume_while_ok_cons h ha hd hok

end Html

/-! The same step lemmas for the selector scanner, whose cursor primitives
are textually identical. -/

namespace Css

theorem eof_false_of_cons_c {s : Css} {c : Char} {l : List Char}
    (h : dropBytes s.input s.pos = some (c :: l)) : s.eof = false := by
  have hb := dropBytes_byteLen h
  have := Char.utf8Size_pos c
  rw [eof, decide_eq_false_iff_not]
  rw [byteLen_cons] at hb
  omega

theorem eof_true_of_nil_c {s : Css} (h : dropBytes s.input s.pos = some []) :
    s.eof = true := by
  have hb := dropBytes_byteLen h
  rw [eof, decide_eq_true_eq]
  rw [byteLen_nil] at hb
  omega

theorem remaining_eq_c {s : Css} {suf : List Char}
    (h : dropBytes s.input s.pos = some suf) : s.remaining = .ok suf := by
  simp [remaining, h]

theorem next_char_of_cons_c {s : Css} {c : Char} {l : List Char}
    (h : dropBytes s.input s.pos = some (c :: l)) : s.next_char = .ok c := by
  simp [next_char, remaining, h]

theorem starts_with_eq_c {s : Css} {suf : List Char}
    (h : dropBytes s.input s.pos = some suf) (p : List Char) :
    s.starts_with p = .ok (List.isPrefixOf p suf) := by
  simp [starts_with, remaining, h]

theorem consume_char_of_cons2_c {s : Css} {c d : Char} {l : List Char}
    (h : dropBytes s.input s.pos = some (c :: d :: l)) :
    s.consume_char = .ok (c, { s with pos := s.pos + c.utf8Size }) := by
  simp [consume_char, remaining, h]

theorem consume_char_of_one_c {s : Css} {c : Char}
    (h : dropBytes s.input s.pos = some [c]) :
    s.consume_char = .ok (c, { s with pos := s.pos + 1 }) := by
  simp [consume_char, remaining, h]

theorem consume_while_stop_c {fuel : Nat} {s : Css} {test : Char → Bool}
    {c : Char} {l : List Char}
    (h : dropBytes s.input s.pos = some (c :: l)) (hc : test c = false) :
    consume_while (fuel + 1) s test = .ok ([], s) := by
  simp only [consume_while]
  rw [eof_false_of_cons_c h]
  simp [next_char_of_cons_c h, hc]

theorem consume_while_ok_cons_c {test : Char → Bool} {a : List Char} :
    ∀ {fuel : Nat} {s : Css} {r : List Char × Css} {d : Char} {rest : List Char},
    dropBytes s.input s.pos = some (a ++ d :: rest) →
    (∀ c ∈ a, test c = true) → test d = false →
    consume_while fuel s test = .ok r →
    r = (a, { s with pos := s.pos + byteLen a }) := by
  induction a with
  | nil =>
    intro fuel s r d rest h ha hd hok
    cases fuel with
    | zero => simp [consume_while] at hok
    | succ f =>
      rw [List.nil_append] at h
      rw [consume_while_stop_c h hd] at hok
      cases hok
      simp
  | cons c a' ih =>
    intro fuel s r d rest h ha hd hok
    cases fuel with
    | zero => simp [consume_while] at hok
    | succ f =>
      have hc : test c = true := ha c (List.mem_cons_self c a')
      rw [List.cons_append] at h
      obtain ⟨e, l2, hel⟩ : ∃ e l2, a' ++ d :: rest = e :: l2 := by
        cases a' <;> exact ⟨_, _, rfl⟩
      simp only [consume_while] at hok
      rw [eof_false_of_cons_c h] at hok
      rw [hel] at h
      simp only [Bool.false_eq_true, if_false, next_char_of_cons_c h, Res.bind_ok, hc,
        if_true, consume_char_of_cons2_c h] at hok
      simp only [Res.bind_eq_ok] at hok
      obtain ⟨⟨acc, s2⟩, hrec, hfin⟩ := hok
      have h2 : dropBytes s.input (s.pos + c.utf8Size) = some (e :: l2) :=
        dropBytes_cons_utf8Size h
      rw [← hel] at h2
      have := ih (s := { s with pos := s.pos + c.utf8Size }) h2 (fun x hx => ha x (List.mem_cons_of_mem c hx)) hd hrec
      cases this
      cases hfin
      simp [byteLen_cons]
      omega

theorem consume_whitespace_ok_cons_c {fuel : Nat} {s s2 : Css} {d : Char} {rest : List Char}
    (h : dropBytes s.input s.pos = some (d :: rest)) (hd : rustIsWhitespace d = false)
    (hok : consume_whitespace fuel s = .ok s2) : s2 = s := by
  rw [consume_whitespace] at hok
  simp only [Res.bind_eq_ok] at hok
  obtain ⟨⟨acc, s1⟩, hcw, hfin⟩ := hok
  have := consume_while_ok_cons_c (a := []) h (by simp) hd hcw
  cases this
  cases hfin
  rfl

theorem parse_identifier_ok {fuel : Nat} {s : Css} {r : List Char × Css}
    {a : List Char} {d : Char} {rest : List Char}
    (h : dropBytes s.input s.pos = some (a ++ d :: rest))
    (ha : ∀ c ∈ a, valid_identifier_char c = true) (hd : valid_identifier_char d = false)
    (hok : parse_identifier fuel s = .ok r) :
    r = (a, { s with pos := s.pos + byteLen a }) := by
  rw [parse_identifier] at hok
  exact consume_while_ok_cons_c h ha hd hok

end Css

theorem dropBytes_add_byteLen {l t a : List Char} {n : Nat}
    (h : dropBytes l n = some (a ++ t)) : dropBytes l (n + byteLen a) = some t := by
  obtain ⟨p, rfl, rfl⟩ := dropBytes_eq_some_iff.mp h
  exact dropBytes_eq_some_iff.mpr ⟨p ++ a, by simp, by simp [byteLen_append]⟩

/-- If the comment closer occurs nowhere inside `c`, it is also not a
prefix of any nonempty suffix of `c` extended by the closer itself: a match
cannot straddle the boundary, because the straddling positions would need a
closing angle where the closer still has a dash. -/
theorem no_close_prefix {c b : List Char}
    (hc : ∀ i, ¬ (commentClose <+: List.drop i c)) (hne : c ≠ []) :
    List.isPrefixOf commentClose (c ++ (commentClose ++ b)) = false := by
  have e1 : (('-' : Char) == '-') = true := rfl
  have e2 : (('>' : Char) == '-') = false := rfl
  match c, hne with
  | [x], _ =>
    show List.isPrefixOf ['-', '-', '>'] (x :: '-' :: '-' :: '>' :: b) = false
    simp [List.isPrefixOf_cons₂, e2]
  | [x, y], _ =>
    show List.isPrefixOf ['-', '-', '>'] (x :: y :: '-' :: '-' :: '>' :: b) = false
    simp [List.isPrefixOf_cons₂, e2]
  | x :: y :: z :: d, _ =>
    show List.isPrefixOf ['-', '-', '>'] (x :: y :: z :: (d ++ (commentClose ++ b))) = false
    simp only [List.isPrefixOf_cons₂, List.isPrefixOf_nil_left, Bool.and_true]
    by_contra hfalse
    rw [Bool.not_eq_false] at hfalse
    simp only [Bool.and_eq_true, beq_iff_eq] at hfalse
    obtain ⟨h1, h2, h3⟩ := hfalse
    subst h1; subst h2; subst h3
    exact hc 0 ⟨d, rfl⟩

namespace Html

/-- Inversion for the comment scanning loop: over a remaining input
`c ++ commentClose ++ b` where the closer occurs nowhere in `c`, a normal
completion stops exactly at the closer. -/
theorem comment_scan_ok {c : List Char} :
    ∀ {fuel : Nat} {s s2 : Html} {b : List Char},
    dropBytes s.input s.pos = some (c ++ (commentClose ++ b)) →
    (∀ i, ¬ (commentClose <+: List.drop i c)) →
    comment_scan fuel s = .ok s2 →
    s2 = { s with pos := s.pos + byteLen c } := by
  induction c with
  | nil =>
    intro fuel s s2 b h hc hok
    cases fuel with
    | zero => simp [comment_scan] at hok
    | succ f =>
      rw [List.nil_append] at h
      simp only [comment_scan] at hok
      rw [starts_with_eq h] at hok
      have hpre : List.isPrefixOf commentClose (commentClose ++ b) = true := by
        simp
      rw [hpre] at hok
      simp at hok
      cases hok
      simp
  | cons x c' ih =>
    intro fuel s s2 b h hc hok
    cases fuel with
    | zero => simp [comment_scan] at hok
    | succ f =>
      simp only [comment_scan] at hok
      rw [starts_with_eq h, no_close_prefix hc (by simp)] at hok
      simp only [Res.bind_ok, ite_bool_false] at hok
      simp only [Res.bind_eq_ok] at hok
      obtain ⟨p1, hcc, hok⟩ := hok
      obtain ⟨e, l2, hel⟩ : ∃ e l2, c' ++ (commentClose ++ b) = e :: l2 := by
        cases c' <;> exact ⟨_, _, rfl⟩
      rw [List.cons_append, hel] at h
      rw [consume_char_of_cons2 h] at hcc
      cases hcc
      have hok2 : comment_scan f { s with pos := s.pos + x.utf8Size } = .ok s2 := hok
      have h2 : dropBytes ({ s with pos := s.pos + x.utf8Size } : Html).input
          ({ s with pos := s.pos + x.utf8Size } : Html).pos =
          some (c' ++ (commentClose ++ b)) := by
        show dropBytes s.input (s.pos + x.utf8Size) = some (c' ++ (commentClose ++ b))
        rw [hel]
        exact dropBytes_cons_utf8Size h
      have hc' : ∀ i, ¬ (commentClose <+: List.drop i c') := fun i hi => hc (i + 1) (by simpa)
      have hfin := ih h2 hc' hok2
      rw [hfin]
      simp [byteLen_cons]
      omega

/-- Inversion for the bounded character-consuming loops: with the literal
`p` and a nonempty continuation ahead, consuming `p.length` characters
lands right after `p`. -/
theorem consume_chars_ok_of_prefix {p : List Char} :
    ∀ {s s2 : Html} {t : List Char},
    dropBytes s.input s.pos = some (p ++ t) → t ≠ [] →
    consume_chars p.length s = .ok s2 →
    s2 = { s with pos := s.pos + byteLen p } := by
  induction p with
  | nil =>
    intro s s2 t h ht hok
    cases hok
    simp
  | cons x p' ih =>
    intro s s2 t h ht hok
    simp only [List.length_cons, consume_chars] at hok
    obtain ⟨e, l2, hel⟩ : ∃ e l2, p' ++ t = e :: l2 := by
      cases p' with
      | nil =>
        cases t with
        | nil => exact absurd rfl ht
        | cons a tl => exact ⟨_, _, rfl⟩
      | cons a tl => exact ⟨_, _, rfl⟩
    rw [List.cons_append, hel] at h
    rw [consume_char_of_cons2 h] at hok
    simp only [Res.bind_ok] at hok
    have h2 : dropBytes s.input (s.pos + x.utf8Size) = some (p' ++ t) := by
      rw [hel]
      exact dropBytes_cons_utf8Size h
    have := ih h2 ht hok
    rw [this]
    simp [byteLen_cons]
    omega

/-- Inversion for parse_comment: consuming the 4-byte opener, the comment
body (which does not contain the closer) and the 3-byte closer. -/
theorem parse_comment_ok {fuel : Nat} {s s2 : Html} {c b : List Char}
    (h : dropBytes s.input s.pos = some (commentOpen ++ (c ++ (commentClose ++ b))))
    (hc : ∀ i, ¬ (commentClose <+: List.drop i c))
    (hne : b ≠ [])
    (hok : parse_comment fuel s = .ok s2) :
    s2 = { s with pos := s.pos + (byteLen c + 7) } := by
  rw [parse_comment] at hok
  simp only [Res.bind_eq_ok] at hok
  obtain ⟨s3, h3, s4, h4, h5⟩ := hok
  have e4 : (4 : Nat) = commentOpen.length := rfl
  rw [e4] at h3
  have hs3 := consume_chars_ok_of_prefix h (by simp [commentClose]) h3
  subst hs3
  have hbo : byteLen commentOpen = 4 := rfl
  have h2 : dropBytes s.input (s.pos + 4) = some (c ++ (commentClose ++ b)) := by
    have := dropBytes_add_byteLen h
    rw [hbo] at this
    exact this
  have hs4 := comment_scan_ok h2 hc h4
  subst hs4
  have e3 : (3 : Nat) = commentClose.length := rfl
  rw [e3] at h5
  have h6 : dropBytes s.input (s.pos + 4 + byteLen c) = some (commentClose ++ b) :=
    dropBytes_add_byteLen h2
  have hs2 := consume_chars_ok_of_prefix h6 hne h5
  rw [hs2]
  have hbc : byteLen commentClose = 3 := rfl
  simp [hbc]
  omega

/-- Inversion for the text accumulation loop in the comment-free case: the
text stops at the first angle bracket when it does not open a comment. -/
theorem parse_text_loop_ok_plain {fuel : Nat} {s : Html} {r : List Char × Html}
    {b rmd : List Char}
    (h : dropBytes s.input s.pos = some (b ++ '<' :: rmd))
    (hb : ∀ x ∈ b, (x != '<') = true)
    (hr : List.isPrefixOf commentOpen ('<' :: rmd) = false)
    (hok : parse_text_loop fuel s = .ok r) :
    r = (b, { s with pos := s.pos + byteLen b }) := by
  cases fuel with
  | zero => simp [parse_text_loop] at hok
  | succ f =>
    simp only [parse_text_loop, Res.bind_eq_ok] at hok
    obtain ⟨⟨data, s1⟩, hcw, hok⟩ := hok
    have hdata := consume_while_ok_cons h hb (by simp) hcw
    cases hdata
    have h2 : dropBytes s.input (s.pos + byteLen b) = some ('<' :: rmd) :=
      dropBytes_add_byteLen h
    obtain ⟨bsw, hsw, hok⟩ := hok
    rw [starts_with_eq h2] at hsw
    cases hsw
    rw [hr] at hok
    simp at hok
    cases hok
    rfl

/-- Inversion for the text accumulation loop when the text is interrupted
by exactly one comment: the comment is discarded and the two text pieces
are accumulated into the same buffer. -/
theorem parse_text_loop_ok_comment {fuel : Nat} {s : Html} {r : List Char × Html}
    {a c b rmd : List Char}
    (h : dropBytes s.input s.pos =
      some (a ++ ('<' :: '!' :: '-' :: '-' :: (c ++ (commentClose ++ (b ++ '<' :: rmd))))))
    (hha : ∀ x ∈ a, (x != '<') = true)
    (hb : ∀ x ∈ b, (x != '<') = true)
    (hc : ∀ i, ¬ (commentClose <+: List.drop i c))
    (hr : List.isPrefixOf commentOpen ('<' :: rmd) = false)
    (hok : parse_text_loop fuel s = .ok r) :
    r = (a ++ b, { s with pos := s.pos + (byteLen a + byteLen c + byteLen b + 7) }) := by
  cases fuel with
  | zero => simp [parse_text_loop] at hok
  | succ f =>
    simp only [parse_text_loop, Res.bind_eq_ok] at hok
    obtain ⟨⟨data, s1⟩, hcw, hok⟩ := hok
    have hdata := consume_while_ok_cons h hha (by simp) hcw
    cases hdata
    have h2 : dropBytes s.input (s.pos + byteLen a) =
        some ('<' :: '!' :: '-' :: '-' :: (c ++ (commentClose ++ (b ++ '<' :: rmd)))) :=
      dropBytes_add_byteLen h
    obtain ⟨bsw, hsw, hok⟩ := hok
    rw [starts_with_eq h2] at hsw
    cases hsw
    have hpre : List.isPrefixOf commentOpen
        ('<' :: '!' :: '-' :: '-' :: (c ++ (commentClose ++ (b ++ '<' :: rmd)))) = true := by
      show List.isPrefixOf commentOpen
        (commentOpen ++ (c ++ (commentClose ++ (b ++ '<' :: rmd)))) = true
      simp
    rw [hpre] at hok
    simp only [ite_bool_true, if_true, Res.bind_eq_ok] at hok
    obtain ⟨s2, hcm, hok⟩ := hok
    have h3 : dropBytes s.input (s.pos + byteLen a) =
        some (commentOpen ++ (c ++ (commentClose ++ (b ++ '<' :: rmd)))) := h2
    have hs2 := parse_comment_ok h3 hc (by simp) hcm
    subst hs2
    obtain ⟨⟨more, s3⟩, hrec, hok⟩ := hok
    have h4 : dropBytes s.input (s.pos + byteLen a + (byteLen c + 7)) =
        some (b ++ '<' :: rmd) := by
      have h5 := dropBytes_add_byteLen (a := commentOpen) h3
      have h6 := dropBytes_add_byteLen (a := c) h5
      have h7 := dropBytes_add_byteLen (a := commentClose) h6
      have hbo : byteLen commentOpen = 4 := rfl
      have hbc : byteLen commentClose = 3 := rfl
      rw [hbo] at h6 h7
      rw [hbc] at h7
      have e : s.pos + byteLen a + 4 + byteLen c + 3 = s.pos + byteLen a + (byteLen c + 7) := by
        omega
      rw [e] at h7
      exact h7
    have hmore := parse_text_loop_ok_plain h4 hb hr hrec
    cases hmore
    cases hok
    simp [Html.mk.injEq]
    omega

end Html

/-- Characters of the tag-name class are none of the structural characters
of the markup grammar and are not whitespace. -/
theorem isTagNameChar_spec {c : Char} (h : isTagNameChar c = true) :
    c ≠ '!' ∧ c ≠ '/' ∧ c ≠ '<' ∧ c ≠ '>' ∧ rustIsWhitespace c = false := by
  refine ⟨?_, ?_, ?_, ?_, ?_⟩
  · rintro rfl
    exact absurd h (by decide)
  · rintro rfl
    exact absurd h (by decide)
  · rintro rfl
    exact absurd h (by decide)
  · rintro rfl
    exact absurd h (by decide)
  · simp only [isTagNameChar, Bool.or_eq_true, Bool.and_eq_true, decide_eq_true_eq] at h
    rw [Bool.eq_false_iff]
    intro hw
    simp only [rustIsWhitespace, Bool.or_eq_true, Bool.and_eq_true, decide_eq_true_eq,
      beq_iff_eq] at hw
    omega

/-- A remaining input whose second character is not an exclamation mark
does not start a comment. -/
theorem not_comment_open {t0 : Char} (h : t0 ≠ '!') (rest : List Char) :
    List.isPrefixOf commentOpen ('<' :: t0 :: rest) = false := by
  simp only [commentOpen, List.isPrefixOf_cons₂]
  rw [show (('<' : Char) == '<') = true from rfl,
    beq_eq_false_iff_ne.mpr (Ne.symm h)]
  simp

/-- A remaining input whose second character is not a slash does not start
a closing tag. -/
theorem not_close_tag {t0 : Char} (h : t0 ≠ '/') (rest : List Char) :
    List.isPrefixOf closeTag ('<' :: t0 :: rest) = false := by
  simp only [closeTag, List.isPrefixOf_cons₂]
  rw [show (('<' : Char) == '<') = true from rfl,
    beq_eq_false_iff_ne.mpr (Ne.symm h)]
  simp

namespace Html

/-- Inversion for parse_attributes when the next character is already the
closing angle of the opening tag: the attribute map stays empty and the
cursor does not move. -/
theorem parse_attributes_ok_gt {fuel : Nat} {s : Html} {r : AttrMap × Html}
    {rest : List Char}
    (h : dropBytes s.input s.pos = some ('>' :: rest))
    (hok : parse_attributes fuel s = .ok r) : r = ([], s) := by
  rw [parse_attributes] at hok
  cases fuel with
  | zero => simp [parse_attributes_loop] at hok
  | succ f =>
    simp only [parse_attributes_loop, Res.bind_eq_ok] at hok
    obtain ⟨s1, hws, hok⟩ := hok
    have hs1 := consume_whitespace_ok_cons h (by decide) hws
    subst hs1
    obtain ⟨c1, hnc, hok⟩ := hok
    rw [next_char_of_cons h] at hnc
    cases hnc
    rw [show (('>' : Char) == '>') = true from rfl] at hok
    simp at hok
    cases hok
    rfl

/-- Inversion for parse_nodes when the remaining input starts with a
closing tag: the loop stops with no nodes and an unmoved cursor. -/
theorem parse_nodes_ok_closing {fuel : Nat} {s : Html} {r : List Node × Html}
    {rest : List Char}
    (h : dropBytes s.input s.pos = some ('<' :: '/' :: rest))
    (hok : parse_nodes fuel s = .ok r) : r = ([], s) := by
  cases fuel with
  | zero => simp [parse_nodes] at hok
  | succ f =>
    simp only [parse_nodes, Res.bind_eq_ok] at hok
    obtain ⟨s1, hws, hok⟩ := hok
    have hs1 := consume_whitespace_ok_cons h (by decide) hws
    subst hs1
    obtain ⟨b1, hsw1, hok⟩ := hok
    rw [starts_with_eq h] at hsw1
    cases hsw1
    rw [not_comment_open (by decide) rest] at hok
    simp only [Bool.false_eq_true, if_false] at hok
    rw [eof_false_of_cons h] at hok
    simp only [Bool.false_eq_true, if_false, Res.bind_eq_ok] at hok
    obtain ⟨b2, hsw2, hok⟩ := hok
    rw [starts_with_eq h] at hsw2
    cases hsw2
    have hpre : List.isPrefixOf closeTag ('<' :: '/' :: rest) = true := by
      show List.isPrefixOf closeTag (closeTag ++ rest) = true
      simp
    rw [hpre] at hok
    simp at hok
    cases hok
    rfl

end Html

/-! Preservation of the cursor discipline (input unchanged, cursor
monotone, in-bounds cursor stays in bounds) by every scanning operation. -/

namespace Html

theorem presv_refl (s : Html) : presv s s := ⟨rfl, le_refl _, fun h => h⟩

theorem presv_trans {s s1 s2 : Html} (h1 : presv s s1) (h2 : presv s1 s2) :
    presv s s2 := by
  obtain ⟨hi1, hp1, hb1⟩ := h1
  obtain ⟨hi2, hp2, hb2⟩ := h2
  refine ⟨hi2.trans hi1, hp1.trans hp2, fun h => ?_⟩
  have hx := hb2 (by rw [hi1]; exact hb1 h)
  rw [hi1] at hx
  exact hx

theorem consume_char_presv {s : Html} {c : Char} {s1 : Html}
    (h : s.consume_char = .ok (c, s1)) : presv s s1 := by
  rw [consume_char, remaining] at h
  simp only [Res.bind_eq_ok, Res.unwrapO_eq_ok] at h
  obtain ⟨suf, hdrop, hk⟩ := h
  have hbl := dropBytes_byteLen hdrop
  cases suf with
  | nil => simp at hk
  | cons c0 rest =>
    have hw := one_le_utf8Size c0
    rw [byteLen_cons] at hbl
    cases rest with
    | nil =>
      have hs1 : s1 = { s with pos := s.pos + 1 } := by
        cases hk
        rfl
      subst hs1
      refine ⟨rfl, ?_, fun _ => ?_⟩
      · show s.pos ≤ s.pos + 1
        omega
      · show s.pos + 1 ≤ byteLen s.input
        rw [byteLen_nil] at hbl
        omega
    | cons d tl =>
      have hs1 : s1 = { s with pos := s.pos + c0.utf8Size } := by
        cases hk
        rfl
      subst hs1
      refine ⟨rfl, ?_, fun _ => ?_⟩
      · show s.pos ≤ s.pos + c0.utf8Size
        omega
      · show s.pos + c0.utf8Size ≤ byteLen s.input
        omega

theorem consume_while_presv {test : Char → Bool} :
    ∀ {fuel : Nat} {s : Html} {acc : List Char} {s1 : Html},
    consume_while fuel s test = .ok (acc, s1) → presv s s1 := by
  intro fuel
  induction fuel with
  | zero =>
    intro s acc s1 h
    simp [consume_while] at h
  | succ f ih =>
    intro s acc s1 h
    simp only [consume_while] at h
    split at h
    · cases h
      exact presv_refl _
    · simp only [Res.bind_eq_ok] at h
      obtain ⟨c0, hnc, h⟩ := h
      split at h
      · simp only [Res.bind_eq_ok] at h
        obtain ⟨⟨c1, s2⟩, hcc, ⟨⟨acc2, s3⟩, hrec, h⟩⟩ := h
        cases h
        exact presv_trans (consume_char_presv hcc) (ih hrec)
      · cases h
        exact presv_refl _

theorem consume_whitespace_presv {fuel : Nat} {s s1 : Html}
    (h : consume_whitespace fuel s = .ok s1) : presv s s1 := by
  rw [consume_whitespace] at h
  simp only [Res.bind_eq_ok] at h
  obtain ⟨⟨acc, s2⟩, hcw, h⟩ := h
  cases h
  exact consume_while_presv hcw

theorem parse_tag_name_presv {fuel : Nat} {s : Html} {t : List Char} {s1 : Html}
    (h : parse_tag_name fuel s = .ok (t, s1)) : presv s s1 := by
  rw [parse_tag_name] at h
  exact consume_while_presv h

theorem consume_chars_presv : ∀ {n : Nat} {s s1 : Html},
    consume_chars n s = .ok s1 → presv s s1 := by
  intro n
  induction n with
  | zero =>
    intro s s1 h
    cases h
    exact presv_refl _
  | succ m ih =>
    intro s s1 h
    simp only [consume_chars, Res.bind_eq_ok] at h
    obtain ⟨⟨c1, s2⟩, hcc, h⟩ := h
    exact presv_trans (consume_char_presv hcc) (ih h)

theorem comment_scan_presv : ∀ {fuel : Nat} {s s1 : Html},
    comment_scan fuel s = .ok s1 → presv s s1 := by
  intro fuel
  induction fuel with
  | zero =>
    intro s s1 h
    simp [comment_scan] at h
  | succ f ih =>
    intro s s1 h
    simp only [comment_scan, Res.bind_eq_ok] at h
    obtain ⟨b, hsw, h⟩ := h
    split at h
    · cases h
      exact presv_refl _
    · simp only [Res.bind_eq_ok] at h
      obtain ⟨⟨c1, s2⟩, hcc, h⟩ := h
      exact presv_trans (consume_char_presv hcc) (ih h)

theorem parse_comment_presv {fuel : Nat} {s s1 : Html}
    (h : parse_comment fuel s = .ok s1) : presv s s1 := by
  rw [parse_comment] at h
  simp only [Res.bind_eq_ok] at h
  obtain ⟨s2, h2, s3, h3, h4⟩ := h
  exact presv_trans (consume_chars_presv h2)
    (presv_trans (comment_scan_presv h3) (consume_chars_presv h4))

theorem parse_text_loop_presv : ∀ {fuel : Nat} {s : Html} {t : List Char} {s1 : Html},
    parse_text_loop fuel s = .ok (t, s1) → presv s s1 := by
  intro fuel
  induction fuel with
  | zero =>
    intro s t s1 h
    simp [parse_text_loop] at h
  | succ f ih =>
    intro s t s1 h
    simp only [parse_text_loop, Res.bind_eq_ok] at h
    obtain ⟨⟨data, s2⟩, hcw, b, hsw, h⟩ := h
    split at h
    · simp only [Res.bind_eq_ok] at h
      obtain ⟨s3, hcm, ⟨⟨more, s4⟩, hrec, h⟩⟩ := h
      cases h
      exact presv_trans (consume_while_presv hcw)
        (presv_trans (parse_comment_presv hcm) (ih hrec))
    · cases h
      exact consume_while_presv hcw

theorem parse_text_presv {fuel : Nat} {s : Html} {n : Node} {s1 : Html}
    (h : parse_text fuel s = .ok (n, s1)) : presv s s1 := by
  rw [parse_text] at h
  simp only [Res.bind_eq_ok] at h
  obtain ⟨⟨data, s2⟩, hl, h⟩ := h
  cases h
  exact parse_text_loop_presv hl

theorem parse_attr_value_presv {fuel : Nat} {s : Html} {v : List Char} {s1 : Html}
    (h : parse_attr_value fuel s = .ok (v, s1)) : presv s s1 := by
  rw [parse_attr_value] at h
  simp only [Res.bind_eq_ok, rassert_eq_ok, exists_const] at h
  obtain ⟨⟨oq, s2⟩, h1, hb1, ⟨v2, s3⟩, h2, ⟨cq, s4⟩, h3, hb2, h⟩ := h
  cases h
  exact presv_trans (consume_char_presv h1)
    (presv_trans (consume_while_presv h2) (consume_char_presv h3))

theorem parse_attr_presv {fuel : Nat} {s : Html} {kv : List Char × List Char} {s1 : Html}
    (h : parse_attr fuel s = .ok (kv, s1)) : presv s s1 := by
  rw [parse_attr] at h
  simp only [Res.bind_eq_ok, rassert_eq_ok, exists_const] at h
  obtain ⟨⟨k, s2⟩, h1, ⟨e, s3⟩, h2, hb, ⟨v, s4⟩, h3, h⟩ := h
  cases h
  exact presv_trans (parse_tag_name_presv h1)
    (presv_trans (consume_char_presv h2) (parse_attr_value_presv h3))

theorem parse_attributes_loop_presv :
    ∀ {fuel : Nat} {s : Html} {attrs m : AttrMap} {s1 : Html},
    parse_attributes_loop fuel s attrs = .ok (m, s1) → presv s s1 := by
  intro fuel
  induction fuel with
  | zero =>
    intro s attrs m s1 h
    simp [parse_attributes_loop] at h
  | succ f ih =>
    intro s attrs m s1 h
    simp only [parse_attributes_loop, Res.bind_eq_ok] at h
    obtain ⟨s2, hws, c0, hnc, h⟩ := h
    split at h
    · cases h
      exact consume_whitespace_presv hws
    · simp only [Res.bind_eq_ok] at h
      obtain ⟨⟨kv, s3⟩, hattr, h⟩ := h
      exact presv_trans (consume_whitespace_presv hws)
        (presv_trans (parse_attr_presv hattr) (ih h))

theorem parse_attributes_presv {fuel : Nat} {s : Html} {m : AttrMap} {s1 : Html}
    (h : parse_attributes fuel s = .ok (m, s1)) : presv s s1 := by
  rw [parse_attributes] at h
  exact parse_attributes_loop_presv h

theorem parse_group_presv : ∀ fuel : Nat,
    (∀ (s : Html) (n : Option Node) (s1 : Html),
      parse_node fuel s = .ok (n, s1) → presv s s1) ∧
    (∀ (s : Html) (n : Node) (s1 : Html),
      parse_element fuel s = .ok (n, s1) → presv s s1) ∧
    (∀ (s : Html) (ns : List Node) (s1 : Html),
      parse_nodes fuel s = .ok (ns, s1) → presv s s1) := by
  intro fuel
  induction fuel with
  | zero =>
    refine ⟨?_, ?_, ?_⟩ <;> intro s x s1 h <;>
      simp [parse_node, parse_element, parse_nodes] at h
  | succ f ih =>
    obtain ⟨ihn, ihe, ihs⟩ := ih
    refine ⟨?_, ?_, ?_⟩
    · intro s x s1 h
      simp only [parse_node, Res.bind_eq_ok] at h
      obtain ⟨b1, hsw1, h⟩ := h
      split at h
      · simp only [Res.bind_eq_ok] at h
        obtain ⟨s2, hcm, h⟩ := h
        cases h
        exact parse_comment_presv hcm
      · simp only [Res.bind_eq_ok] at h
        obtain ⟨b2, hsw2, h⟩ := h
        split at h
        · cases h
          exact presv_refl _
        · simp only [Res.bind_eq_ok] at h
          obtain ⟨c0, hnc, h⟩ := h
          split at h
          · simp only [Res.bind_eq_ok] at h
            obtain ⟨⟨nd, s2⟩, hel, h⟩ := h
            cases h
            exact ihe _ _ _ hel
          · simp only [Res.bind_eq_ok] at h
            obtain ⟨⟨nd, s2⟩, htx, h⟩ := h
            cases h
            exact parse_text_presv htx
    · intro s x s1 h
      simp only [parse_element, Res.bind_eq_ok, rassert_eq_ok, exists_const] at h
      obtain ⟨⟨c1, t1⟩, h1, hb1, ⟨tnm, t2⟩, h2, ⟨attrs, t3⟩, h3, ⟨c2, t4⟩, h4, hb2,
        ⟨ch, t5⟩, h5, ⟨c3, t6⟩, h6, hb3, ⟨c4, t7⟩, h7, hb4, ⟨ctn, t8⟩, h8, hb5,
        ⟨c5, t9⟩, h9, hb6, h⟩ := h
      cases h
      exact presv_trans (consume_char_presv h1)
        (presv_trans (parse_tag_name_presv h2)
          (presv_trans (parse_attributes_presv h3)
            (presv_trans (consume_char_presv h4)
              (presv_trans (ihs _ _ _ h5)
                (presv_trans (consume_char_presv h6)
                  (presv_trans (consume_char_presv h7)
                    (presv_trans (parse_tag_name_presv h8)
                      (consume_char_presv h9))))))))
    · intro s x s1 h
      simp only [parse_nodes, Res.bind_eq_ok] at h
      obtain ⟨s2, hws, b1, hsw1, h⟩ := h
      have hws2 := consume_whitespace_presv hws
      split at h
      · simp only [Res.bind_eq_ok] at h
        obtain ⟨s3, hcm, ⟨⟨n1, s4⟩, hnd, ⟨⟨rest, s5⟩, hrec, h⟩⟩⟩ := h
        cases h
        exact presv_trans hws2
          (presv_trans (parse_comment_presv hcm)
            (presv_trans (ihn _ _ _ hnd) (ihs _ _ _ hrec)))
      · split at h
        · cases h
          exact hws2
        · simp only [Res.bind_eq_ok] at h
          obtain ⟨b2, hsw2, h⟩ := h
          split at h
          · cases h
            exact hws2
          · simp only [Res.bind_eq_ok] at h
            obtain ⟨⟨n1, s4⟩, hnd, ⟨⟨rest, s5⟩, hrec, h⟩⟩ := h
            cases h
            exact presv_trans hws2 (presv_trans (ihn _ _ _ hnd) (ihs _ _ _ hrec))

end Html

namespace Css

theorem presv_refl_c (s : Css) : presv s s := ⟨rfl, le_refl _, fun h => h⟩

theorem presv_trans_c {s s1 s2 : Css} (h1 : presv s s1) (h2 : presv s1 s2) :
    presv s s2 := by
  obtain ⟨hi1, hp1, hb1⟩ := h1
  obtain ⟨hi2, hp2, hb2⟩ := h2
  refine ⟨hi2.trans hi1, hp1.trans hp2, fun h => ?_⟩
  have hx := hb2 (by rw [hi1]; exact hb1 h)
  rw [hi1] at hx
  exact hx

theorem consume_char_presv_c {s : Css} {c : Char} {s1 : Css}
    (h : s.consume_char = .ok (c, s1)) : presv s s1 := by
  rw [consume_char, remaining] at h
  simp only [Res.bind_eq_ok, Res.unwrapO_eq_ok] at h
  obtain ⟨suf, hdrop, hk⟩ := h
  have hbl := dropBytes_byteLen hdrop
  cases suf with
  | nil => simp at hk
  | cons c0 rest =>
    have hw := one_le_utf8Size c0
    rw [byteLen_cons] at hbl
    cases rest with
    | nil =>
      have hs1 : s1 = { s with pos := s.pos + 1 } := by
        cases hk
        rfl
      subst hs1
      refine ⟨rfl, ?_, fun _ => ?_⟩
      · show s.pos ≤ s.pos + 1
        omega
      · show s.pos + 1 ≤ byteLen s.input
        rw [byteLen_nil] at hbl
        omega
    | cons d tl =>
      have hs1 : s1 = { s with pos := s.pos + c0.utf8Size } := by
        cases hk
        rfl
      subst hs1
      refine ⟨rfl, ?_, fun _ => ?_⟩
      · show s.pos ≤ s.pos + c0.utf8Size
        omega
      · show s.pos + c0.utf8Size ≤ byteLen s.input
        omega

theorem consume_while_presv_c {test : Char → Bool} :
    ∀ {fuel : Nat} {s : Css} {acc : List Char} {s1 : Css},
    consume_while fuel s test = .ok (acc, s1) → presv s s1 := by
  intro fuel
  induction fuel with
  | zero =>
    intro s acc s1 h
    simp [consume_while] at h
  | succ f ih =>
    intro s acc s1 h
    simp only [consume_while] at h
    split at h
    · cases h
      exact presv_refl_c _
    · simp only [Res.bind_eq_ok] at h
      obtain ⟨c0, hnc, h⟩ := h
      split at h
      · simp only [Res.bind_eq_ok] at h
        obtain ⟨⟨c1, s2⟩, hcc, ⟨⟨acc2, s3⟩, hrec, h⟩⟩ := h
        cases h
        exact presv_trans_c (consume_char_presv_c hcc) (ih hrec)
      · cases h
        exact presv_refl_c _

theorem consume_whitespace_presv_c {fuel : Nat} {s s1 : Css}
    (h : consume_whitespace fuel s = .ok s1) : presv s s1 := by
  rw [consume_whitespace] at h
  simp only [Res.bind_eq_ok] at h
  obtain ⟨⟨acc, s2⟩, hcw, h⟩ := h
  cases h
  exact consume_while_presv_c hcw

theorem parse_identifier_presv {fuel : Nat} {s : Css} {t : List Char} {s1 : Css}
    (h : parse_identifier fuel s = .ok (t, s1)) : presv s s1 := by
  rw [parse_identifier] at h
  exact consume_while_presv_c h

theorem parse_simple_selector_loop_presv :
    ∀ {fuel : Nat} {s : Css} {sel x : SimpleSelector} {s1 : Css},
    parse_simple_selector_loop fuel s sel = .ok (x, s1) → presv s s1 := by
  intro fuel
  induction fuel with
  | zero =>
    intro s sel x s1 h
    simp [parse_simple_selector_loop] at h
  | succ f ih =>
    intro s sel x s1 h
    simp only [parse_simple_selector_loop] at h
    split at h
    · cases h
      exact presv_refl_c _
    · simp only [Res.bind_eq_ok] at h
      obtain ⟨c0, hnc, h⟩ := h
      split at h
      · simp only [Res.bind_eq_ok] at h
        obtain ⟨⟨c1, s2⟩, hcc, ⟨⟨nm, s3⟩, hid, h⟩⟩ := h
        exact presv_trans_c (consume_char_presv_c hcc)
          (presv_trans_c (parse_identifier_presv hid) (ih h))
      · split at h
        · simp only [Res.bind_eq_ok] at h
          obtain ⟨⟨c1, s2⟩, hcc, ⟨⟨nm, s3⟩, hid, h⟩⟩ := h
          exact presv_trans_c (consume_char_presv_c hcc)
            (presv_trans_c (parse_identifier_presv hid) (ih h))
        · split at h
          · simp only [Res.bind_eq_ok] at h
            obtain ⟨⟨c1, s2⟩, hcc, h⟩ := h
            exact presv_trans_c (consume_char_presv_c hcc) (ih h)
          · split at h
            · simp only [Res.bind_eq_ok] at h
              obtain ⟨⟨nm, s2⟩, hid, h⟩ := h
              exact presv_trans_c (parse_identifier_presv hid) (ih h)
            · cases h
              exact presv_refl_c _

theorem parse_simple_selector_presv {fuel : Nat} {s : Css} {x : SimpleSelector} {s1 : Css}
    (h : parse_simple_selector fuel s = .ok (x, s1)) : presv s s1 := by
  rw [parse_simple_selector] at h
  exact parse_simple_selector_loop_presv h

theorem parse_selectors_loop_presv :
    ∀ {fuel : Nat} {s : Css} {sels : List Selector} {s1 : Css},
    parse_selectors_loop fuel s = .ok (sels, s1) → presv s s1 := by
  intro fuel
  induction fuel with
  | zero =>
    intro s sels s1 h
    simp [parse_selectors_loop] at h
  | succ f ih =>
    intro s sels s1 h
    simp only [parse_selectors_loop, Res.bind_eq_ok] at h
    obtain ⟨⟨sel, s2⟩, hsel, s3, hws, c0, hnc, h⟩ := h
    have hp1 := presv_trans_c (parse_simple_selector_presv hsel) (consume_whitespace_presv_c hws)
    split at h
    · simp only [Res.bind_eq_ok] at h
      obtain ⟨⟨c1, s4⟩, hcc, s5, hws2, ⟨⟨rest, s6⟩, hrec, h⟩⟩ := h
      cases h
      exact presv_trans_c hp1
        (presv_trans_c (consume_char_presv_c hcc)
          (presv_trans_c (consume_whitespace_presv_c hws2) (ih hrec)))
    · split at h
      · cases h
        exact hp1
      · cases h

theorem parse_selectors_presv {fuel : Nat} {s : Css} {sels : List Selector} {s1 : Css}
    (h : parse_selectors fuel s = .ok (sels, s1)) : presv s s1 := by
  rw [parse_selectors] at h
  simp only [Res.bind_eq_ok] at h
  obtain ⟨⟨orig, s2⟩, hloop, h⟩ := h
  cases h
  exact parse_selectors_loop_presv hloop

end Css

/-! Claim theorems. -/

/-- C8: every state-returning scanning operation of both scanners
preserves the cursor discipline on a normal completion: the input string
is unchanged, pos never decreases, and pos stays within 0 and the input
length inclusive (the lower bound is inherent in the Nat cursor; the upper
bound is kept whenever it held on entry).  The remaining primitives
(next_char, starts_with, eof) return no state at all, so they cannot
move the cursor or change the input. -/
theorem scanner_cursor_discipline :
    (∀ (s : Html) (c : Char) (s1 : Html),
      Html.consume_char s = .ok (c, s1) → Html.presv s s1) ∧
    (∀ (fuel : Nat) (test : Char → Bool) (s : Html) (acc : List Char) (s1 : Html),
      Html.consume_while fuel s test = .ok (acc, s1) → Html.presv s s1) ∧
    (∀ (fuel : Nat) (s s1 : Html),
      Html.consume_whitespace fuel s = .ok s1 → Html.presv s s1) ∧
    (∀ (fuel : Nat) (s : Html) (t : List Char) (s1 : Html),
      Html.parse_tag_name fuel s = .ok (t, s1) → Html.presv s s1) ∧
    (∀ (n : Nat) (s s1 : Html),
      Html.consume_chars n s = .ok s1 → Html.presv s s1) ∧
    (∀ (fuel : Nat) (s s1 : Html),
      Html.parse_comment fuel s = .ok s1 → Html.presv s s1) ∧
    (∀ (fuel : Nat) (s : Html) (n : Node) (s1 : Html),
      Html.parse_text fuel s = .ok (n, s1) → Html.presv s s1) ∧
    (∀ (fuel : Nat) (s : Html) (v : List Char) (s1 : Html),
      Html.parse_attr_value fuel s = .ok (v, s1) → Html.presv s s1) ∧
    (∀ (fuel : Nat) (s : Html) (kv : List Char × List Char) (s1 : Html),
      Html.parse_attr fuel s = .ok (kv, s1) → Html.presv s s1) ∧
    (∀ (fuel : Nat) (s : Html) (m : AttrMap) (s1 : Html),
      Html.parse_attributes fuel s = .ok (m, s1) → Html.presv s s1) ∧
    (∀ (fuel : Nat) (s : Html) (n : Option Node) (s1 : Html),
      Html.parse_node fuel s = .ok (n, s1) → Html.presv s s1) ∧
    (∀ (fuel : Nat) (s : Html) (n : Node) (s1 : Html),
      Html.parse_element fuel s = .ok (n, s1) → Html.presv s s1) ∧
    (∀ (fuel : Nat) (s : Html) (ns : List Node) (s1 : Html),
      Html.parse_nodes fuel s = .ok (ns, s1) → Html.presv s s1) ∧
    (∀ (s : Css) (c : Char) (s1 : Css),
      Css.consume_char s = .ok (c, s1) → Css.presv s s1) ∧
    (∀ (fuel : Nat) (test : Char → Bool) (s : Css) (acc : List Char) (s1 : Css),
      Css.consume_while fuel s test = .ok (acc, s1) → Css.presv s s1) ∧
    (∀ (fuel : Nat) (s s1 : Css),
      Css.consume_whitespace fuel s = .ok s1 → Css.presv s s1) ∧
    (∀ (fuel : Nat) (s : Css) (t : List Char) (s1 : Css),
      Css.parse_identifier fuel s = .ok (t, s1) → Css.presv s s1) ∧
    (∀ (fuel : Nat) (s : Css) (x : SimpleSelector) (s1 : Css),
      Css.parse_simple_selector fuel s = .ok (x, s1) → Css.presv s s1) ∧
    (∀ (fuel : Nat) (s : Css) (sels : List Selector) (s1 : Css),
      Css.parse_selectors_loop fuel s = .ok (sels, s1) → Css.presv s s1) ∧
    (∀ (fuel : Nat) (s : Css) (sels : List Selector) (s1 : Css),
      Css.parse_selectors fuel s = .ok (sels, s1) → Css.presv s s1) := by
  refine ⟨fun s c s1 h => Html.consume_char_presv h,
    fun fuel test s acc s1 h => Html.consume_while_presv h,
    fun fuel s s1 h => Html.consume_whitespace_presv h,
    fun fuel s t s1 h => Html.parse_tag_name_presv h,
    fun n s s1 h => Html.consume_chars_presv h,
    fun fuel s s1 h => Html.parse_comment_presv h,
    fun fuel s n s1 h => Html.parse_text_presv h,
    fun fuel s v s1 h => Html.parse_attr_value_presv h,
    fun fuel s kv s1 h => Html.parse_attr_presv h,
    fun fuel s m s1 h => Html.parse_attributes_presv h,
    fun fuel s n s1 h => (Html.parse_group_presv fuel).1 s n s1 h,
    fun fuel s n s1 h => (Html.parse_group_presv fuel).2.1 s n s1 h,
    fun fuel s ns s1 h => (Html.parse_group_presv fuel).2.2 s ns s1 h,
    fun s c s1 h => Css.consume_char_presv_c h,
    fun fuel test s acc s1 h => Css.consume_while_presv_c h,
    fun fuel s s1 h => Css.consume_whitespace_presv_c h,
    fun fuel s t s1 h => Css.parse_identifier_presv h,
    fun fuel s x s1 h => Css.parse_simple_selector_presv h,
    fun fuel s sels s1 h => Css.parse_selectors_loop_presv h,
    fun fuel s sels s1 h => Css.parse_selectors_presv h⟩

theorem scanner_cursor_discipline_witness :
    Html.presv { pos := 0, input := "ab".toList } { pos := 1, input := "ab".toList } :=
  scanner_cursor_discipline.1 { pos := 0, input := "ab".toList } 'a'
    { pos := 1, input := "ab".toList } (by rfl)

/-- C1: the claim states that consume_char decodes the character at the
cursor and advances by that character's true encoded byte width even when
it is the last character of the remaining input.  The source instead uses
the fixed fallback `iter.next().unwrap_or((1, ' '))` there: on the
one-character input U+00E9 (width 2 in UTF-8) both scanners return the
character but advance pos by 1, leaving the cursor inside the character. -/
theorem consume_char_final_char_fixed_fallback :
    (Char.ofNat 233).utf8Size = 2 ∧
    Html.consume_char { pos := 0, input := [Char.ofNat 233] } =
      .ok (Char.ofNat 233, { pos := 1, input := [Char.ofNat 233] }) ∧
    Css.consume_char { pos := 0, input := [Char.ofNat 233] } =
      .ok (Char.ofNat 233, { pos := 1, input := [Char.ofNat 233] }) :=
  ⟨rfl, rfl, rfl⟩

/-- C9: the parser is a pure function of its input string: parsing equal
inputs produces structurally identical results, at every recursion bound;
in the embedding there is no other state a run could depend on. -/
theorem parse_pure_deterministic :
    ∀ (fuel : Nat) (s1 s2 : List Char), s1 = s2 →
      Html.parse fuel s1 = Html.parse fuel s2 := by
  intro fuel s1 s2 h
  rw [h]

theorem parse_pure_deterministic_witness :
    Html.parse 50 ("<b></b>".toList) = Html.parse 50 ("<b></b>".toList) :=
  parse_pure_deterministic 50 ("<b></b>".toList) ("<b></b>".toList) rfl

/-- C5: specificity is the triple (id count, class count, tag count) with
id count and tag count 0 or 1, triples compare lexicographically, any
selector with an id outranks any id-less selector, and among id-less
selectors the class count decides before the tag count. -/
theorem specificity_lexicographic :
    (∀ sel : SimpleSelector,
        (Selector.simple sel).specificity =
          ((if sel.id.isSome then 1 else 0), sel.classes.length,
           (if sel.tag_name.isSome then 1 else 0))) ∧
    (∀ x y : Specificity, specCmp x y = .lt ↔
        (x.1 < y.1 ∨ (x.1 = y.1 ∧ (x.2.1 < y.2.1 ∨ (x.2.1 = y.2.1 ∧ x.2.2 < y.2.2))))) ∧
    (∀ s1 s2 : SimpleSelector, s1.id.isSome = true → s2.id = none →
        specCmp (Selector.simple s2).specificity (Selector.simple s1).specificity = .lt) ∧
    (∀ s1 s2 : SimpleSelector, s1.id = none → s2.id = none →
        s1.classes.length < s2.classes.length →
        specCmp (Selector.simple s1).specificity (Selector.simple s2).specificity = .lt) := by
  refine ⟨?_, fun x y => specCmp_eq_lt, ?_, ?_⟩
  · intro sel
    rcases sel with ⟨t, i, cls⟩
    cases i <;> cases t <;> rfl
  · intro s1 s2 h1 h2
    obtain ⟨v, hv⟩ := Option.isSome_iff_exists.mp h1
    rw [specCmp_eq_lt]
    left
    simp [Selector.specificity, hv, h2]
  · intro s1 s2 h1 h2 hlt
    rw [specCmp_eq_lt]
    right
    constructor
    · simp [Selector.specificity, h1, h2]
    · left
      simpa [Selector.specificity] using hlt

theorem specificity_lexicographic_witness :
    specCmp (Selector.simple { tag_name := some ("p".toList), id := none, classes := [] }).specificity
      (Selector.simple { tag_name := none, id := some ("x".toList), classes := [] }).specificity = .lt :=
  specificity_lexicographic.2.2.1
    { tag_name := none, id := some ("x".toList), classes := [] }
    { tag_name := some ("p".toList), id := none, classes := [] } rfl rfl

/-- C2: whenever parse_nodes succeeds on a document, a single top-level
node is returned by parse directly as the root, while zero or several
top-level nodes become the children, in order, of a synthesized html
element with an empty attribute map; with concrete runs for the zero-node
and two-node cases. -/
theorem parse_root_wrapping :
    (∀ (fuel : Nat) (source : List Char) (nodes : List Node) (s1 : Html),
        Html.parse_nodes fuel { pos := 0, input := source } = .ok (nodes, s1) →
        (∀ n, nodes = [n] → Html.parse fuel source = .ok n) ∧
        (nodes.length ≠ 1 →
          Html.parse fuel source = .ok (Node.element ("html".toList) [] nodes))) ∧
    Html.parse 50 ("".toList) = .ok (Node.element ("html".toList) [] []) ∧
    Html.parse 50 ("<a></a><b></b>".toList) =
      .ok (Node.element ("html".toList) []
        [Node.element ("a".toList) [] [], Node.element ("b".toList) [] []]) := by
  refine ⟨?_, rfl, rfl⟩
  intro fuel source nodes s1 h
  constructor
  · rintro n rfl
    rw [Html.parse, h]
    rfl
  · intro hlen
    rw [Html.parse, h]
    match nodes, hlen with
    | [], _ => rfl
    | [n], hlen => exact absurd rfl hlen
    | a :: b :: tl, _ => rfl

theorem parse_root_wrapping_witness :
    Html.parse 50 ("<b></b>".toList) = .ok (Node.element ("b".toList) [] []) :=
  (parse_root_wrapping.1 50 ("<b></b>".toList)
      [Node.element ("b".toList) [] []]
      { pos := 7, input := "<b></b>".toList } (by rfl)).1
    (Node.element ("b".toList) [] []) rfl

/-- The collection loop of parse_selectors pushes a selector before any of
its exits, so a normal completion always carries at least one selector. -/
theorem parse_selectors_loop_ok_ne_nil {fuel : Nat} {s : Css} {r : List Selector × Css}
    (h : Css.parse_selectors_loop fuel s = .ok r) : r.1 ≠ [] := by
  cases fuel with
  | zero => simp [Css.parse_selectors_loop] at h
  | succ f =>
    simp only [Css.parse_selectors_loop, Res.bind_eq_ok] at h
    obtain ⟨⟨simple, s1⟩, h1, h⟩ := h
    obtain ⟨s2, h2, h⟩ := h
    obtain ⟨c, h3, h⟩ := h
    split at h
    · simp only [Res.bind_eq_ok] at h
      obtain ⟨⟨c2, s3⟩, h4, h⟩ := h
      obtain ⟨s4, h5, h⟩ := h
      obtain ⟨⟨rest, s5⟩, h6, h⟩ := h
      cases h
      simp
    · split at h
      · cases h
        simp
      · cases h

/-- C10: a normal completion of parse_selectors always returns at least
one selector, and an input whose first character is an opening brace
yields exactly one all-default simple selector with the cursor still at
the brace. -/
theorem parse_selectors_result_nonempty :
    (∀ (fuel : Nat) (s : Css) (sels : List Selector) (s1 : Css),
        Css.parse_selectors fuel s = .ok (sels, s1) → sels ≠ []) ∧
    (∀ (fuel : Nat) (rest : List Char),
        Css.parse_selectors (fuel + 2) { pos := 0, input := obrace :: rest } =
          .ok ([Selector.simple SimpleSelector.new],
               { pos := 0, input := obrace :: rest })) := by
  constructor
  · intro fuel s sels s1 h
    rw [Css.parse_selectors] at h
    simp only [Res.bind_eq_ok] at h
    obtain ⟨⟨orig, s2⟩, hloop, hfin⟩ := h
    cases hfin
    have horig := parse_selectors_loop_ok_ne_nil hloop
    intro hnil
    have hsort : sortSelectors orig = [] := hnil
    exact horig ((hsort ▸ sortSelectors_perm orig).symm.eq_nil)
  · intro fuel rest
    have e2 : fuel + 2 = (fuel + 1) + 1 := rfl
    have hdrop : dropBytes (Css.mk 0 (obrace :: rest)).input (Css.mk 0 (obrace :: rest)).pos
        = some (obrace :: rest) := dropBytes_zero _
    have hpss : Css.parse_simple_selector_loop (fuel + 1)
        { pos := 0, input := obrace :: rest } SimpleSelector.new =
        .ok (SimpleSelector.new, { pos := 0, input := obrace :: rest }) := by
      simp only [Css.parse_simple_selector_loop, Css.eof_false_of_cons_c hdrop,
        Bool.false_eq_true, if_false, Css.next_char_of_cons_c hdrop, Res.bind_ok]
      simp [show (obrace == '#') = false from rfl, show (obrace == '.') = false from rfl,
        show (obrace == '*') = false from rfl, show valid_identifier_char obrace = false from rfl]
    rw [e2, Css.parse_selectors]
    simp only [Css.parse_selectors_loop, Css.parse_simple_selector, hpss, Res.bind_ok]
    have hws : Css.consume_whitespace (fuel + 1) { pos := 0, input := obrace :: rest } =
        .ok { pos := 0, input := obrace :: rest } := by
      rw [Css.consume_whitespace]
      rw [Css.consume_while_stop_c hdrop (by rfl)]
      rfl
    simp only [hws, Res.bind_ok, Css.next_char_of_cons_c hdrop]
    simp [show (obrace == ',') = false from rfl, sortSelectors, sortInsert]

/-- C3 counterexample: the claim's example input "#id, p, .c1, .c2" lacks
the opening brace that terminates a selector list; after the last selector
parse_selectors unwraps next_char at end of input and panics, so parsing
that exact string yields no selector list at all. -/
theorem parse_selectors_unterminated_list_panics :
    Css.parse_selectors 100 { pos := 0, input := "#id, p, .c1, .c2".toList } =
      .panic := rfl

/-- C3 (amended): on every selector-list input on which parse_selectors
succeeds, the returned list is the collected selector list stably sorted
by descending specificity: a permutation of it, pairwise descending, with
the selectors of each fixed specificity kept in their relative input
order; in particular the brace-terminated list "#id, p, .c1, .c2 (brace)"
yields the id selector, then the two class selectors in input order, then
the tag selector. -/
theorem parse_selectors_sorted_stable :
    (∀ (fuel : Nat) (s : Css) (sels : List Selector) (s1 : Css),
        Css.parse_selectors fuel s = .ok (sels, s1) →
        ∃ orig, Css.parse_selectors_loop fuel s = .ok (orig, s1) ∧
          sels = sortSelectors orig ∧
          List.Perm sels orig ∧
          sels.Pairwise SpecDesc ∧
          (∀ v, sels.filter (fun z => decide (z.specificity = v)) =
                orig.filter (fun z => decide (z.specificity = v)))) ∧
    Css.parse_selectors 100 { pos := 0, input := "#id, p, .c1, .c2 \x7b".toList } =
      .ok ([Selector.simple { tag_name := none, id := some ("id".toList), classes := [] },
            Selector.simple { tag_name := none, id := none, classes := ["c1".toList] },
            Selector.simple { tag_name := none, id := none, classes := ["c2".toList] },
            Selector.simple { tag_name := some ("p".toList), id := none, classes := [] }],
           { pos := 17, input := "#id, p, .c1, .c2 \x7b".toList }) := by
  constructor
  · intro fuel s sels s1 h
    rw [Css.parse_selectors] at h
    simp only [Res.bind_eq_ok] at h
    obtain ⟨⟨orig, s2⟩, hloop, hfin⟩ := h
    cases hfin
    exact ⟨orig, hloop, rfl, sortSelectors_perm orig, sortSelectors_sorted orig,
      fun v => filter_spec_sortSelectors v orig⟩
  · rfl

theorem parse_selectors_sorted_stable_witness :
    ∃ orig, Css.parse_selectors_loop 50 { pos := 0, input := "p \x7b".toList } =
        .ok (orig, { pos := 2, input := "p \x7b".toList }) ∧
      [Selector.simple { tag_name := some ("p".toList), id := none, classes := [] }] =
        sortSelectors orig ∧
      List.Perm [Selector.simple { tag_name := some ("p".toList), id := none, classes := [] }] orig ∧
      List.Pairwise SpecDesc
        [Selector.simple { tag_name := some ("p".toList), id := none, classes := [] }] ∧
      (∀ v, List.filter (fun z => decide (z.specificity = v))
              [Selector.simple { tag_name := some ("p".toList), id := none, classes := [] }] =
            orig.filter (fun z => decide (z.specificity = v))) :=
  parse_selectors_sorted_stable.1 50 { pos := 0, input := "p \x7b".toList }
    [Selector.simple { tag_name := some ("p".toList), id := none, classes := [] }]
    { pos := 2, input := "p \x7b".toList } (by rfl)

theorem parse_selectors_result_nonempty_witness :
    ([Selector.simple { tag_name := some ("p".toList), id := none, classes := [] }] :
      List Selector) ≠ [] :=
  parse_selectors_result_nonempty.1 50 { pos := 0, input := "p \x7b".toList }
    [Selector.simple { tag_name := some ("p".toList), id := none, classes := [] }]
    { pos := 2, input := "p \x7b".toList } (by rfl)

/-- C4: parse_text accumulates text up to each angle bracket, transparently
discards a comment it meets (opener, body without the closer, closer) and
keeps accumulating the following text into the same buffer, returning one
Text node holding the concatenated content; and concretely the h1 document
of the spec yields an h1 element with exactly one Text child
"Hello  world". -/
theorem parse_text_discards_comments :
    (∀ (fuel : Nat) (s : Html) (r : Node × Html) (a c b rmd : List Char),
      dropBytes s.input s.pos =
        some (a ++ ('<' :: '!' :: '-' :: '-' :: (c ++ (commentClose ++ (b ++ '<' :: rmd))))) →
      (∀ x ∈ a, x ≠ '<') → (∀ x ∈ b, x ≠ '<') →
      (∀ i, ¬ (commentClose <+: List.drop i c)) →
      List.isPrefixOf commentOpen ('<' :: rmd) = false →
      Html.parse_text fuel s = .ok r →
      r = (Node.text (a ++ b),
           { s with pos := s.pos + (byteLen a + byteLen c + byteLen b + 7) })) ∧
    Html.parse 100 ("<h1>Hello <!-- this is a comment --> world</h1>".toList) =
      .ok (Node.element ("h1".toList) [] [Node.text ("Hello  world".toList)]) := by
  constructor
  · intro fuel s r a c b rmd h ha hb hc hr hok
    rw [Html.parse_text] at hok
    simp only [Res.bind_eq_ok] at hok
    obtain ⟨⟨data, s1⟩, hloop, hfin⟩ := hok
    have ha2 : ∀ x ∈ a, (x != '<') = true := by
      intro x hx
      simpa using ha x hx
    have hb2 : ∀ x ∈ b, (x != '<') = true := by
      intro x hx
      simpa using hb x hx
    have hres := Html.parse_text_loop_ok_comment h ha2 hb2 hc hr hloop
    cases hres
    cases hfin
    rfl
  · rfl

theorem parse_text_discards_comments_witness :
    ((Node.text ("hiyo".toList),
      ({ pos := 12, input := "hi<!--x-->yo</a".toList } : Html)) : Node × Html) =
      (Node.text ("hi".toList ++ "yo".toList),
       { pos := 0 + (byteLen ("hi".toList) + byteLen ("x".toList) +
           byteLen ("yo".toList) + 7),
         input := "hi<!--x-->yo</a".toList }) :=
  parse_text_discards_comments.1 50 { pos := 0, input := "hi<!--x-->yo</a".toList }
    (Node.text ("hiyo".toList), { pos := 12, input := "hi<!--x-->yo</a".toList })
    ("hi".toList) ("x".toList) ("yo".toList) ("/a".toList)
    (by rfl) (by decide) (by decide)
    (by
      intro i hpre
      have h1 := hpre.length_le
      have h2 : (List.drop i ("x".toList)).length ≤ 1 := by
        simp
      simp [commentClose] at h1
      omega)
    (by rfl) (by rfl)

/-- C6: a document whose single element carries a closing tag name that
differs from its opening tag name never produces a node: no run of parse on
such a document, at any recursion bound, returns a value (it panics at the
closing-tag assert, or runs out of fuel first); together with concrete
aborting runs for a closing tag mismatch, a missing attribute delimiter
(no `=` after the attribute name) and an invalid attribute quote. -/
theorem parse_mismatched_closing_aborts :
    (∀ (fuel : Nat) (t u : List Char) (r : Node),
      t ≠ [] → u ≠ [] →
      (∀ c ∈ t, isTagNameChar c = true) → (∀ c ∈ u, isTagNameChar c = true) →
      t ≠ u →
      Html.parse fuel ('<' :: (t ++ '>' :: '<' :: '/' :: (u ++ ['>']))) ≠ .ok r) ∧
    Html.parse 60 ("<a></b>".toList) = .panic ∧
    Html.parse 60 ("<a x>y</a>".toList) = .panic ∧
    Html.parse 60 ("<a x=y>z</a>".toList) = .panic := by
  refine ⟨?_, rfl, rfl, rfl⟩
  intro fuel t u r htne hune ht hu htu hok
  obtain ⟨t0, t', rfl⟩ : ∃ t0 t', t = t0 :: t' := by
    cases t with
    | nil => exact absurd rfl htne
    | cons a b => exact ⟨a, b, rfl⟩
  obtain ⟨u0, u', rfl⟩ : ∃ u0 u', u = u0 :: u' := by
    cases u with
    | nil => exact absurd rfl hune
    | cons a b => exact ⟨a, b, rfl⟩
  have ht0 := isTagNameChar_spec (ht t0 (List.mem_cons_self t0 t'))
  have hu0 := isTagNameChar_spec (hu u0 (List.mem_cons_self u0 u'))
  simp only [List.cons_append] at hok
  -- cursor facts along the document
  have hd0 : dropBytes ('<' :: t0 :: (t' ++ '>' :: '<' :: '/' :: u0 :: (u' ++ ['>']))) 0 =
      some ('<' :: t0 :: (t' ++ '>' :: '<' :: '/' :: u0 :: (u' ++ ['>']))) :=
    dropBytes_zero _
  have hdA : dropBytes ('<' :: t0 :: (t' ++ '>' :: '<' :: '/' :: u0 :: (u' ++ ['>'])))
      (0 + Char.utf8Size '<') =
      some (t0 :: (t' ++ '>' :: '<' :: '/' :: u0 :: (u' ++ ['>']))) :=
    dropBytes_add_byteLen (a := ['<']) hd0
  have hdB : dropBytes ('<' :: t0 :: (t' ++ '>' :: '<' :: '/' :: u0 :: (u' ++ ['>'])))
      (0 + Char.utf8Size '<' + byteLen (t0 :: t')) =
      some ('>' :: '<' :: '/' :: u0 :: (u' ++ ['>'])) :=
    dropBytes_add_byteLen (a := t0 :: t') hdA
  have hdC : dropBytes ('<' :: t0 :: (t' ++ '>' :: '<' :: '/' :: u0 :: (u' ++ ['>'])))
      (0 + Char.utf8Size '<' + byteLen (t0 :: t') + Char.utf8Size '>') =
      some ('<' :: '/' :: u0 :: (u' ++ ['>'])) :=
    dropBytes_add_byteLen (a := ['>']) hdB
  have hdD : dropBytes ('<' :: t0 :: (t' ++ '>' :: '<' :: '/' :: u0 :: (u' ++ ['>'])))
      (0 + Char.utf8Size '<' + byteLen (t0 :: t') + Char.utf8Size '>' + Char.utf8Size '<') =
      some ('/' :: u0 :: (u' ++ ['>'])) :=
    dropBytes_add_byteLen (a := ['<']) hdC
  have hdE : dropBytes ('<' :: t0 :: (t' ++ '>' :: '<' :: '/' :: u0 :: (u' ++ ['>'])))
      (0 + Char.utf8Size '<' + byteLen (t0 :: t') + Char.utf8Size '>' + Char.utf8Size '<' +
        Char.utf8Size '/') =
      some (u0 :: (u' ++ ['>'])) :=
    dropBytes_add_byteLen (a := ['/']) hdD
  rw [Html.parse] at hok
  simp only [Res.bind_eq_ok] at hok
  obtain ⟨⟨ns, sf⟩, hns, hfin⟩ := hok
  cases fuel with
  | zero => simp [Html.parse_nodes] at hns
  | succ f =>
  simp only [Html.parse_nodes, Res.bind_eq_ok] at hns
  obtain ⟨s1, hws, hns⟩ := hns
  have hs1 := Html.consume_whitespace_ok_cons hd0 (by decide) hws
  subst hs1
  obtain ⟨b1, hsw1, hns⟩ := hns
  rw [Html.starts_with_eq hd0] at hsw1
  cases hsw1
  rw [not_comment_open ht0.1 _] at hns
  simp only [Bool.false_eq_true, if_false] at hns
  rw [Html.eof_false_of_cons hd0] at hns
  simp only [Bool.false_eq_true, if_false, Res.bind_eq_ok] at hns
  obtain ⟨b2, hsw2, hns⟩ := hns
  rw [Html.starts_with_eq hd0] at hsw2
  cases hsw2
  rw [not_close_tag ht0.2.1 _] at hns
  simp only [Bool.false_eq_true, if_false, Res.bind_eq_ok] at hns
  obtain ⟨⟨n?, s3⟩, hnode, hns⟩ := hns
  -- parse_node dispatches to parse_element
  cases f with
  | zero => simp [Html.parse_node] at hnode
  | succ g =>
  simp only [Html.parse_node, Res.bind_eq_ok] at hnode
  obtain ⟨b3, hsw3, hnode⟩ := hnode
  rw [Html.starts_with_eq hd0] at hsw3
  cases hsw3
  rw [not_comment_open ht0.1 _] at hnode
  simp only [Bool.false_eq_true, if_false, Res.bind_eq_ok] at hnode
  obtain ⟨b4, hsw4, hnode⟩ := hnode
  rw [Html.starts_with_eq hd0] at hsw4
  cases hsw4
  rw [not_close_tag ht0.2.1 _] at hnode
  simp only [Bool.false_eq_true, if_false, Res.bind_eq_ok] at hnode
  obtain ⟨c0, hnc, hnode⟩ := hnode
  rw [Html.next_char_of_cons hd0] at hnc
  cases hnc
  rw [show (('<' : Char) == '<') = true from rfl] at hnode
  simp only [ite_bool_true, if_true, eq_self_iff_true, Res.bind_eq_ok] at hnode
  obtain ⟨⟨nd, s4⟩, hel, hnode⟩ := hnode
  -- parse_element: walk the opening tag, the empty child list and the
  -- closing tag, and hit the closing-tag-name assert
  cases g with
  | zero => simp [Html.parse_element] at hel
  | succ k =>
  simp only [Html.parse_element, Res.bind_eq_ok, rassert_eq_ok, exists_const] at hel
  obtain ⟨⟨c1, s5⟩, hcc1, hel⟩ := hel
  rw [Html.consume_char_of_cons2 hd0] at hcc1
  cases hcc1
  obtain ⟨hb1, hel⟩ := hel
  obtain ⟨⟨tnm, s6⟩, htag, hel⟩ := hel
  have htnm := Html.parse_tag_name_ok hdA ht (by decide) htag
  cases htnm
  obtain ⟨⟨attrs, s7⟩, hattrs, hel⟩ := hel
  have hatr := Html.parse_attributes_ok_gt hdB hattrs
  cases hatr
  obtain ⟨⟨c2, s8⟩, hcc2, hel⟩ := hel
  rw [Html.consume_char_of_cons2 hdB] at hcc2
  cases hcc2
  obtain ⟨hb2, hel⟩ := hel
  obtain ⟨⟨ch, s9⟩, hch, hel⟩ := hel
  have hchl := Html.parse_nodes_ok_closing hdC hch
  cases hchl
  obtain ⟨⟨c3, s10⟩, hcc3, hel⟩ := hel
  rw [Html.consume_char_of_cons2 hdC] at hcc3
  cases hcc3
  obtain ⟨hb3, hel⟩ := hel
  obtain ⟨⟨c4, s11⟩, hcc4, hel⟩ := hel
  rw [Html.consume_char_of_cons2 hdD] at hcc4
  cases hcc4
  obtain ⟨hb4, hel⟩ := hel
  obtain ⟨⟨ctn, s12⟩, hctag, hel⟩ := hel
  have hdE2 : dropBytes ('<' :: t0 :: (t' ++ '>' :: '<' :: '/' :: u0 :: (u' ++ ['>'])))
      (0 + Char.utf8Size '<' + byteLen (t0 :: t') + Char.utf8Size '>' + Char.utf8Size '<' +
        Char.utf8Size '/') =
      some ((u0 :: u') ++ '>' :: ([] : List Char)) := hdE
  have hctn := Html.parse_tag_name_ok hdE2 hu (by decide) hctag
  cases hctn
  obtain ⟨hbeq, hel⟩ := hel
  rw [beq_iff_eq] at hbeq
  exact htu (hbeq.symm)

theorem parse_mismatched_closing_aborts_witness :
    Html.parse 60 ('<' :: ("a".toList ++ '>' :: '<' :: '/' :: ("b".toList ++ ['>']))) ≠
      .ok (Node.element ("a".toList) [] []) :=
  parse_mismatched_closing_aborts.1 60 ("a".toList) ("b".toList)
    (Node.element ("a".toList) [] [])
    (by decide) (by decide) (by decide) (by decide) (by decide)

/-- C7: the claim says a document holding one terminated comment is parsed
to a synthesized html element with zero children, with parse_nodes stopping
at end of input after discarding the comment.  In the source, the comment
branch of parse_nodes falls through to parse_node without rechecking end of
input, and parse_node's next_char unwraps None there: on "<!-- c -->" both
parse_nodes and the whole parse panic instead of returning. -/
theorem parse_comment_only_document_panics :
    Html.parse_nodes 50 { pos := 0, input := "<!-- c -->".toList } = .panic ∧
    Html.parse 50 ("<!-- c -->".toList) = .panic :=
  ⟨rfl, rfl⟩

end RustyEngine
